import Mathlib

/-!
# Slab rounding, the mark-sweep collector and the good-enough lexer

A shallow embedding of `mycpp/gc_slab.h`, of the collector exercised by
`mycpp/marksweep_gc_test.cc` and of `doctools/good-enough.re2c.cc`.  C++ `int`
is a 32-bit two's complement integer and `size_t` a 64-bit unsigned one; both
are modelled by `Int` with explicit wrap-around.
-/

namespace Mycpp

/-! ## Machine integers -/

/-- The value of a mathematical integer after conversion to a 32-bit signed `int`. -/
def wrapInt32 (x : Int) : Int := (x + 2 ^ 31) % 2 ^ 32 - 2 ^ 31

/-- The value of a mathematical integer after conversion to `uint32_t`. -/
def wrapUInt32 (x : Int) : Int := x % 2 ^ 32

/-- The value of a mathematical integer after conversion to a 64-bit `size_t`. -/
def wrapSizeT (x : Int) : Int := x % 2 ^ 64

/-! ## `RoundUp` -/

/-- `RoundUp` of `gc_slab.h`: the early return for `n < 8`, then the decrement,
the five shift-and-or steps and the increment, the decrement and the increment
in 32-bit arithmetic. -/
def RoundUp (n : Int) : Int :=
  if n < 8 then 8
  else
    let n := wrapInt32 (n - 1)
    let n := Int.lor n (n >>> 1)
    let n := Int.lor n (n >>> 2)
    let n := Int.lor n (n >>> 4)
    let n := Int.lor n (n >>> 8)
    let n := Int.lor n (n >>> 16)
    wrapInt32 (n + 1)

/-! ## Object headers and slabs -/

/-- The scan tags a slab header can carry. -/
inductive Tag where
  | Scanned
  | Opaque
  deriving DecidableEq, Repr

/-- The four header fields, in the order of the initialiser list of `Slab`. -/
structure ObjHeader where
  heap_tag : Tag
  type_tag : Nat
  field_mask : Nat
  obj_len : Int
  deriving DecidableEq, Repr

/-- Constants of the runtime that `gc_slab.h` uses and does not define. -/
structure Consts where
  kSlabHeaderSize : Nat
  kSlabTypeTag : Nat
  kZeroMask : Nat
  deriving DecidableEq, Repr

/-- What `gc_slab.h` asks of an element type `T`: `std::is_pointer<T>()` and `sizeof(T)`. -/
structure ElemType where
  is_pointer : Bool
  sizeof : Nat
  deriving DecidableEq, Repr

/-- The header written by the constructor `Slab<T>(uint32_t obj_len)`. -/
def Slab (c : Consts) (T : ElemType) (obj_len : Int) : ObjHeader :=
  { heap_tag := if T.is_pointer then Tag.Scanned else Tag.Opaque,
    type_tag := c.kSlabTypeTag,
    field_mask := c.kZeroMask,
    obj_len := obj_len }

/-- The `int obj_len` of `NewSlab<T>(len)`: the sum is formed in `size_t`
(because of `sizeof`) and converted to the `int` parameter of `RoundUp`. -/
def NewSlab_obj_len (c : Consts) (T : ElemType) (len : Int) : Int :=
  RoundUp (wrapInt32 (wrapSizeT
    (wrapSizeT (c.kSlabHeaderSize : Int) + wrapSizeT (wrapSizeT len * (T.sizeof : Int)))))

/-- The two effects of `NewSlab<T>(len)`: the byte count passed to
`gHeap.Allocate` and the header the placement-new writes. -/
structure NewSlabResult where
  allocate_arg : Int
  header_ : ObjHeader
  deriving DecidableEq, Repr

/-- `NewSlab<T>(len)` of `gc_slab.h`. -/
def NewSlab (c : Consts) (T : ElemType) (len : Int) : NewSlabResult :=
  let obj_len := NewSlab_obj_len c T len
  { allocate_arg := obj_len,
    header_ := Slab c T (wrapUInt32 obj_len) }

/-! ## The heap and the mark-sweep collector

The Heap, its `Collect` and the root registration are used by
`marksweep_gc_test.cc` and defined outside the files embedded here; the
definitions of this section follow the description of the collector.
-/

/-- Addresses; `0` is the null pointer. -/
abbrev Addr := Nat

/-- Modelled from the spec: a managed allocation (the Heap and `Obj` are missing):
"Object Header: precedes every managed allocation's payload"; the payload
is the sequence of its pointer-sized slots. -/
structure Obj where
  header : ObjHeader
  payload : List Addr
  deriving DecidableEq, Repr

/-- Modelled from the spec: the Heap (missing), which "maintains the registry of all
currently-live allocations and the current root set".  `registry` lists each
live allocation under its address; `roots` is the Root Set, "a LIFO stack of
registered addresses-of-pointer-variables", top first; `vars` gives the pointer
each pointer variable holds; `marks` is the "transient mark bookkeeping". -/
structure Heap where
  registry : List (Addr × Obj)
  roots : List Addr
  vars : List (Addr × Addr)
  marks : List Addr
  deriving DecidableEq, Repr

/-- Modelled from the spec: whether an address "refers to a tracked allocation" of
the registry (the Heap is missing). -/
def tracked (h : Heap) (a : Addr) : Bool := (h.registry.lookup a).isSome

/-- Modelled from the spec: the slots of an object that marking reads (the Heap is
missing): "only if its header's scan-tag is Scanned - read each pointer-sized
slot of its payload"; "Opaque objects are marked but never have their payload
interpreted as pointers". -/
def scanSlots (o : Obj) : List Addr :=
  match o.header.heap_tag with
  | Tag.Scanned => o.payload
  | Tag.Opaque => []

/-- Modelled from the spec: the allocations an object pushes (the Heap is missing):
"for each slot that refers to a tracked allocation, push that allocation onto
the work-list". -/
def children (h : Heap) (o : Obj) : List Addr := (scanSlots o).filter (tracked h)

/-- Modelled from the spec: phase 2 of `Collect` (the Heap is missing): "repeatedly
pop an object from the work-list; if already marked, skip; otherwise mark it
live", and push the tracked allocations its slots refer to.  The first
argument bounds the number of pops; `markFuel` is always enough. -/
def markLoop (h : Heap) : Nat → List Addr → List Addr → List Addr
  | 0, _, marked => marked
  | _ + 1, [], marked => marked
  | fuel + 1, a :: work, marked =>
    if a ∈ marked then markLoop h fuel work marked
    else
      match h.registry.lookup a with
      | none => markLoop h fuel work marked
      | some o => markLoop h fuel ((children h o).reverse ++ work) (a :: marked)

/-- The pointers held by the variables registered in the Root Set. -/
def rootPointers (h : Heap) : List Addr := h.roots.filterMap (fun v => h.vars.lookup v)

/-- Modelled from the spec: phase 1 of `Collect` (the Heap is missing): "start a
work-list from every address currently in the Root Set"; the work-list holds
the tracked allocations the registered variables point to.  A designated
static slot holding a managed pointer is a variable of `roots` like the
others. -/
def seed (h : Heap) : List Addr := (rootPointers h).filter (tracked h)

/-- A bound on the number of pops of the mark phase: every pop either removes
a work-list entry for good or marks an allocation, which happens once per
allocation and pushes at most as many entries as the allocation has slots. -/
def markFuel (h : Heap) : Nat :=
  (seed h).length + (h.registry.map (fun e => e.2.payload.length)).sum

/-- Modelled from the spec: phases 1 and 2 of `Collect` (the Heap is missing). -/
def Mark (h : Heap) : Heap :=
  { h with marks := markLoop h (markFuel h) (seed h) h.marks }

/-- Modelled from the spec: phase 3 of `Collect` (the Heap is missing): "iterate the
live-allocation registry; any allocation not marked in this pass is freed and
removed from the registry; all surviving marks are cleared". -/
def Sweep (h : Heap) : Heap :=
  { h with registry := h.registry.filter (fun e => decide (e.1 ∈ h.marks)), marks := [] }

/-- Modelled from the spec: `Heap.Collect()` (missing): seed, mark, sweep. -/
def Collect (h : Heap) : Heap := Sweep (Mark h)

/-- The allocations reachable "from the Root Set by following pointer-sized
slots of Scanned objects": the tracked allocations that a registered variable
points to, and the tracked allocations a slot of a reachable Scanned object
refers to. -/
inductive Reachable (h : Heap) : Addr → Prop where
  | root {v a : Addr} : v ∈ h.roots → h.vars.lookup v = some a → tracked h a = true →
      Reachable h a
  | slot {a b : Addr} {o : Obj} : Reachable h a → h.registry.lookup a = some o →
      o.header.heap_tag = Tag.Scanned → b ∈ o.payload → tracked h b = true → Reachable h b

/-- Modelled from the spec: the elements of a list of references (`List<T>` is
missing): the list is a Scanned object whose payload holds its length and the
address of its slab; the slab of a list of pointers is Scanned, and the
elements are its first `len` slots. -/
def listItems (h : Heap) (l : Addr) : Option (List Addr) :=
  match h.registry.lookup l with
  | some ⟨⟨Tag.Scanned, _, _, _⟩, [len, slab]⟩ =>
    match h.registry.lookup slab with
    | some ⟨⟨Tag.Scanned, _, _, _⟩, items⟩ =>
      if len ≤ items.length then some (items.take len) else none
    | _ => none
  | _ => none

/-! ## The heaps of the scenarios of `marksweep_gc_test.cc` -/

/-- The string "foo" as an allocation: an Opaque object holding the three characters. -/
def strFoo : Obj := ⟨⟨Tag.Opaque, 1, 0, 16⟩, [102, 111, 111]⟩

/-- The heap of `string_collection_test` at its first `Collect`: `test_str` (the
variable at address 10, registered by `StackRoots`) points to "foo" at 1000;
the "foo" of the preceding assertion, at 2000, is held by no variable. -/
def stringTestHeap : Heap :=
  { registry := [(1000, strFoo), (2000, strFoo)],
    roots := [10],
    vars := [(10, 1000)],
    marks := [] }

/-- The string "foo_0". -/
def strFoo0 : Obj := ⟨⟨Tag.Opaque, 1, 0, 16⟩, [102, 111, 111, 95, 48]⟩

/-- The string "foo_1". -/
def strFoo1 : Obj := ⟨⟨Tag.Opaque, 1, 0, 16⟩, [102, 111, 111, 95, 49]⟩

/-- The heap of `list_collection_test` at its first `Collect`: the variables
`test_str0`, `test_str1` and `test_list` (at 10, 20 and 30, registered in this
order) point to "foo_0" at 1000, "foo_1" at 2000 and the list at 3000; the list
has length 2 and the slab at 4000, written by the constructor of a slab of
pointers; the slab at 5000 is one the list has grown out of. -/
def listTestHeap : Heap :=
  { registry :=
      [(1000, strFoo0), (2000, strFoo1),
       (3000, ⟨⟨Tag.Scanned, 2, 0, 24⟩, [2, 4000]⟩),
       (4000, ⟨Slab ⟨8, 3, 0⟩ ⟨true, 8⟩ 32, [1000, 2000, 0]⟩),
       (5000, ⟨Slab ⟨8, 3, 0⟩ ⟨true, 8⟩ 16, [1000]⟩)],
    roots := [30, 20, 10],
    vars := [(10, 1000), (20, 2000), (30, 3000)],
    marks := [] }

/-- A heap with one registered variable, pointing to a Scanned object at 1000
that refers to an Opaque object at 2000; the payload of the latter contains
the address 3000 of a third allocation, and a Scanned object at 4000, held by
no variable, refers to the first one. -/
def opaqueTestHeap : Heap :=
  { registry :=
      [(1000, ⟨⟨Tag.Scanned, 2, 0, 24⟩, [2000, 0]⟩),
       (2000, ⟨⟨Tag.Opaque, 1, 0, 16⟩, [3000]⟩),
       (3000, ⟨⟨Tag.Opaque, 1, 0, 16⟩, [7]⟩),
       (4000, ⟨⟨Tag.Scanned, 2, 0, 24⟩, [1000]⟩)],
    roots := [10],
    vars := [(10, 1000)],
    marks := [] }

/-- The slots not yet paid for: the payload lengths of the allocations whose
address is unmarked. -/
def unmarkedSlots (h : Heap) (marked : List Addr) : Nat :=
  ((h.registry.filter (fun e => decide (e.1 ∉ marked))).map (fun e => e.2.payload.length)).sum

/-! ## Scoped root registration and list mutation -/

/-- Modelled from the spec: pushing one address onto the Root Set (the Heap is
missing): "construction pushes them onto the Root Set". -/
def PushRoot (h : Heap) (v : Addr) : Heap := { h with roots := v :: h.roots }

/-- Modelled from the spec: popping the top of the Root Set (the Heap is missing):
"destruction pops them off". -/
def PopRoot (h : Heap) : Heap := { h with roots := h.roots.tail }

/-- Modelled from the spec: construction of the scope-bound guard `StackRoots`
(missing; used as `StackRoots _roots({&test_str0, &test_str1, &test_list})`),
"constructed with an explicit, fixed list of addresses-of-local-pointer-variables;
construction pushes them onto the Root Set", one after the other. -/
def StackRoots_enter (h : Heap) (vars : List Addr) : Heap := vars.foldl PushRoot h

/-- Modelled from the spec: destruction of a guard built from `n` addresses
(`StackRoots` is missing): "destruction pops them off", one pop per address. -/
def StackRoots_exit : Nat → Heap → Heap
  | 0, h => h
  | n + 1, h => StackRoots_exit n (PopRoot h)

/-- The operations of a mutator that concern the Root Set: the construction of
a guard over some variables, the destruction of a guard of `n` variables, and
a collection. -/
inductive RootOp where
  | enter (vars : List Addr)
  | exit (n : Nat)
  | collect
  deriving DecidableEq, Repr

/-- Running a sequence of root operations. -/
def runOps : List RootOp → Heap → Heap
  | [], h => h
  | RootOp.enter vars :: ops, h => runOps ops (StackRoots_enter h vars)
  | RootOp.exit n :: ops, h => runOps ops (StackRoots_exit n h)
  | RootOp.collect :: ops, h => runOps ops (Collect h)

/-- The properly nested sequences: "nesting must mirror lexical scope exactly";
every guard is destroyed, with the number of addresses it was built from,
after the guards constructed inside its scope. -/
inductive Nested : List RootOp → Prop where
  | nil : Nested []
  | collect {ops : List RootOp} : Nested ops → Nested (RootOp.collect :: ops)
  | scope {body rest : List RootOp} (vars : List Addr) : Nested body → Nested rest →
      Nested (RootOp.enter vars :: (body ++ RootOp.exit vars.length :: rest))

/-- Replacing the object found at an address of the registry. -/
def updateObj (reg : List (Addr × Obj)) (l : Addr) (f : Obj → Obj) : List (Addr × Obj) :=
  reg.map (fun e => if e.1 = l then (e.1, f e.2) else e)

/-- Modelled from the spec: `pop()` of a list (`List<T>` is missing): "removing one
element from a rooted 2-element list ... yields length 1 with the remaining
element uncorrupted"; the length stored in the list object drops by one, the
slab is left as it is. -/
def list_pop (h : Heap) (l : Addr) : Heap :=
  match h.registry.lookup l with
  | some ⟨_, [len, _]⟩ =>
    if 0 < len then
      let popped := fun (o : Obj) => { o with payload := [len - 1, o.payload.getD 1 0] }
      { h with registry := updateObj h.registry l popped }
    else h
  | _ => h

/-! ## The lexer of `doctools/good-enough.re2c.cc`

The re2c blocks are embedded as lists of rules over regular expressions.  A
block matches the longest prefix of the input that some rule matches; among
the rules matching that prefix the first one wins; the default rule `*`
matches one code unit and comes last.  Code units are natural numbers, a line
is the list of the bytes before its terminating NUL.
-/

/-- The `enum class Id`. -/
inductive Id where
  | Comm
  | WS
  | Name
  | DQ
  | SQ
  | TripleSQ
  | TripleDQ
  | Other
  | Unknown
  deriving DecidableEq, Repr

/-- The `struct Token`; `end_col` is an `int`. -/
structure Token where
  kind : Id
  end_col : Int
  deriving DecidableEq, Repr

/-- The `enum class py_mode_e`. -/
inductive py_mode_e where
  | Outer
  | MultiSQ
  | MultiDQ
  deriving DecidableEq, Repr

/-- The `enum class cpp_mode_e`. -/
inductive cpp_mode_e where
  | Outer
  | Comm
  deriving DecidableEq, Repr

/-- The mode enumerations a `Lexer<T>` is specialised on: each has `T::Outer`. -/
class LineMode (T : Type) where
  Outer : T

instance : LineMode py_mode_e := ⟨py_mode_e.Outer⟩

instance : LineMode cpp_mode_e := ⟨cpp_mode_e.Outer⟩

/-- The `class Lexer<T>`: `line_` holds the bytes of the line before its
terminating NUL, `p_current` is the offset `p_current - line_`. -/
structure Lexer (T : Type) where
  line_ : List Nat
  p_current : Nat
  line_mode : T
  deriving DecidableEq, Repr

/-- The constructor `Lexer(char* line)`. -/
def Lexer.init {T : Type} [LineMode T] (line : List Nat) : Lexer T :=
  { line_ := line, p_current := 0, line_mode := LineMode.Outer }

/-- `Lexer::SetLine`. -/
def Lexer.SetLine {T : Type} (lexer : Lexer T) (line : List Nat) : Lexer T :=
  { lexer with line_ := line, p_current := 0 }

/-- The bytes from `p_current` on, the terminating NUL included. -/
def Lexer.input {T : Type} (lexer : Lexer T) : List Nat :=
  (lexer.line_ ++ [0]).drop lexer.p_current

/-- The regular expressions of re2c used in the file: character classes,
string literals, concatenation, alternative, `*`, `+` and `?`. -/
inductive Re where
  | cls (p : Nat → Bool)
  | lit (s : List Nat)
  | seq (r s : Re)
  | alt (r s : Re)
  | star (r : Re)
  | plus (r : Re)
  | opt (r : Re)

/-- The lengths of the prefixes of the input matched by zero or more
repetitions, `step` giving the lengths matched by one repetition; an empty
repetition adds nothing, so `fuel` at least the length of the input is enough. -/
def starEnds (step : List Nat → List Nat) : Nat → List Nat → List Nat
  | 0, _ => [0]
  | fuel + 1, inp =>
    0 :: ((step inp).filter (fun n => decide (0 < n))).flatMap
      (fun n => (starEnds step fuel (inp.drop n)).map (fun m => n + m))

/-- The lengths of the prefixes of the input that a regular expression matches. -/
def Re.ends : Re → List Nat → List Nat
  | Re.cls p => fun inp =>
    match inp with
    | [] => []
    | c :: _ => if p c then [1] else []
  | Re.lit s => fun inp => if inp.take s.length = s then [s.length] else []
  | Re.seq r s => fun inp =>
    (r.ends inp).flatMap (fun n => (s.ends (inp.drop n)).map (fun m => n + m))
  | Re.alt r s => fun inp => r.ends inp ++ s.ends inp
  | Re.star r => fun inp => starEnds r.ends inp.length inp
  | Re.plus r => fun inp =>
    (r.ends inp).flatMap
      (fun n => (starEnds r.ends (inp.drop n).length (inp.drop n)).map (fun m => n + m))
  | Re.opt r => fun inp => 0 :: r.ends inp

/-- The greatest element of a list of lengths. -/
def maxLen : List Nat → Option Nat
  | [] => none
  | n :: ns => some (ns.foldl max n)

/-- The length of the longest prefix of the input that a regular expression matches. -/
def Re.longest (r : Re) (inp : List Nat) : Option Nat := maxLen (r.ends inp)

/-- The semantic actions: `{ return true; }`, `TOK(k)` and `TOK_MODE(k, m)`. -/
inductive Action (T : Type) where
  | ret_true
  | TOK (k : Id)
  | TOK_MODE (k : Id) (m : T)
  deriving DecidableEq, Repr

/-- A rule of a re2c block. -/
structure Rule (T : Type) where
  re : Re
  act : Action T

/-- The rule a re2c block selects: the longest match, the first rule among
those that match it. -/
def pick {T : Type} : List (Rule T) → List Nat → Option (Nat × Action T)
  | [], _ => none
  | r :: rs, inp =>
    match r.re.longest inp, pick rs inp with
    | none, b => b
    | some n, none => some (n, r.act)
    | some n, some (m, a) => if n < m then some (m, a) else some (n, r.act)

/-- The character class of one code unit. -/
def chr (c : Nat) : Re := Re.cls (fun x => x == c)

/-- `nul = [\x00]`. -/
def nul : Re := Re.cls (fun x => x == 0)

/-- `not_nul = [^\x00]`. -/
def not_nul : Re := Re.cls (fun x => x != 0)

/-- The class `[_a-zA-Z]`. -/
def identStart (x : Nat) : Bool :=
  x == 95 || (97 ≤ x && x ≤ 122) || (65 ≤ x && x ≤ 90)

/-- The class `[_a-zA-Z0-9]`. -/
def identCont (x : Nat) : Bool :=
  x == 95 || (97 ≤ x && x ≤ 122) || (65 ≤ x && x ≤ 90) || (48 ≤ x && x ≤ 57)

/-- `identifier = [_a-zA-Z][_a-zA-Z0-9]*`. -/
def identifier : Re := Re.seq (Re.cls identStart) (Re.star (Re.cls identCont))

/-- `pound_comment = "#" not_nul*`. -/
def pound_comment : Re := Re.seq (Re.lit [35]) (Re.star not_nul)

/-- `triple_sq = "'''"`. -/
def triple_sq : Re := Re.lit [39, 39, 39]

/-- `triple_dq = ["]["]["]`. -/
def triple_dq : Re := Re.seq (chr 34) (Re.seq (chr 34) (chr 34))

/-- `sq_middle = ( [^\x00'\\] | "\\" not_nul )*`. -/
def sq_middle : Re :=
  Re.star (Re.alt (Re.cls (fun x => x != 0 && x != 39 && x != 92))
    (Re.seq (Re.lit [92]) not_nul))

/-- `dq_middle = ( [^\x00"\\] | "\\" not_nul )*`. -/
def dq_middle : Re :=
  Re.star (Re.alt (Re.cls (fun x => x != 0 && x != 34 && x != 92))
    (Re.seq (Re.lit [92]) not_nul))

/-- `whitespace = [ \t\r\n]*`. -/
def whitespace : Re := Re.star (Re.cls (fun x => x == 32 || x == 9 || x == 13 || x == 10))

/-- The class `[^\x00"'#_a-zA-Z]`. -/
def otherChar (x : Nat) : Bool :=
  x != 0 && x != 34 && x != 39 && x != 35 && !identStart x

/-- The default rule `*`: one code unit, whatever it is. -/
def anyUnit : Re := Re.cls (fun _ => true)

/-- The re2c block of `case py_mode_e::Outer`. -/
def py_Outer_rules : List (Rule py_mode_e) :=
  [ ⟨nul, Action.ret_true⟩,
    ⟨Re.seq (Re.opt (chr 114)) triple_sq, Action.TOK_MODE Id.TripleSQ py_mode_e.MultiSQ⟩,
    ⟨Re.seq (Re.opt (chr 114)) triple_dq, Action.TOK_MODE Id.TripleDQ py_mode_e.MultiDQ⟩,
    ⟨identifier, Action.TOK Id.Name⟩,
    ⟨Re.seq (Re.opt (chr 114)) (Re.seq (chr 39) (Re.seq sq_middle (chr 39))),
      Action.TOK Id.SQ⟩,
    ⟨Re.seq (Re.opt (chr 114)) (Re.seq (chr 34) (Re.seq dq_middle (chr 34))),
      Action.TOK Id.DQ⟩,
    ⟨pound_comment, Action.TOK Id.Comm⟩,
    ⟨whitespace, Action.TOK Id.WS⟩,
    ⟨Re.plus (Re.cls otherChar), Action.TOK Id.Other⟩,
    ⟨anyUnit, Action.TOK Id.Unknown⟩ ]

/-- The re2c block of `case py_mode_e::MultiSQ`. -/
def py_MultiSQ_rules : List (Rule py_mode_e) :=
  [ ⟨nul, Action.ret_true⟩,
    ⟨triple_sq, Action.TOK_MODE Id.TripleSQ py_mode_e.Outer⟩,
    ⟨Re.star (Re.cls (fun x => x != 0 && x != 39)), Action.TOK Id.TripleSQ⟩,
    ⟨anyUnit, Action.TOK Id.TripleSQ⟩ ]

/-- The re2c block of `case py_mode_e::MultiDQ`. -/
def py_MultiDQ_rules : List (Rule py_mode_e) :=
  [ ⟨nul, Action.ret_true⟩,
    ⟨triple_dq, Action.TOK_MODE Id.TripleDQ py_mode_e.Outer⟩,
    ⟨Re.star (Re.cls (fun x => x != 0 && x != 34)), Action.TOK Id.TripleDQ⟩,
    ⟨anyUnit, Action.TOK Id.TripleDQ⟩ ]

/-- The re2c block of `case cpp_mode_e::Outer`. -/
def cpp_Outer_rules : List (Rule cpp_mode_e) :=
  [ ⟨nul, Action.ret_true⟩,
    ⟨Re.seq (Re.opt (chr 114)) triple_sq, Action.TOK_MODE Id.TripleSQ cpp_mode_e.Comm⟩,
    ⟨Re.seq (Re.opt (chr 114)) triple_dq, Action.TOK_MODE Id.TripleDQ cpp_mode_e.Comm⟩,
    ⟨identifier, Action.TOK Id.Name⟩,
    ⟨Re.seq (Re.opt (chr 114)) (Re.seq (chr 39) (Re.seq sq_middle (chr 39))),
      Action.TOK Id.SQ⟩,
    ⟨Re.seq (Re.opt (chr 114)) (Re.seq (chr 34) (Re.seq dq_middle (chr 34))),
      Action.TOK Id.DQ⟩,
    ⟨pound_comment, Action.TOK Id.Comm⟩,
    ⟨whitespace, Action.TOK Id.WS⟩,
    ⟨Re.plus (Re.cls otherChar), Action.TOK Id.Other⟩,
    ⟨anyUnit, Action.TOK Id.Unknown⟩ ]

/-- What a call of `Match` leaves behind: the returned flag (whether the end
of the line was hit), the lexer and the token. -/
structure MatchResult (T : Type) where
  eol : Bool
  lexer : Lexer T
  tok : Token
  deriving DecidableEq, Repr

/-- One re2c block followed by the common tail of `Match`: `return true` leaves
lexer and token as they are; `TOK` and `TOK_MODE` set the kind (and the mode)
and break to `tok->end_col = p - lexer->line_; lexer->p_current = p; return
false`.  With no byte left to read the block reports the end of the line. -/
def runBlock {T : Type} (rules : List (Rule T)) (lexer : Lexer T) (tok : Token) :
    MatchResult T :=
  match pick rules lexer.input with
  | none => ⟨true, lexer, tok⟩
  | some (_, Action.ret_true) => ⟨true, lexer, tok⟩
  | some (n, Action.TOK k) =>
    ⟨false, { lexer with p_current := lexer.p_current + n },
      { kind := k, end_col := wrapInt32 ((lexer.p_current + n : Nat) : Int) }⟩
  | some (n, Action.TOK_MODE k m) =>
    ⟨false, { lexer with p_current := lexer.p_current + n, line_mode := m },
      { kind := k, end_col := wrapInt32 ((lexer.p_current + n : Nat) : Int) }⟩

/-- `Matcher<py_mode_e>::Match`. -/
def Match_py (lexer : Lexer py_mode_e) (tok : Token) : MatchResult py_mode_e :=
  match lexer.line_mode with
  | py_mode_e.Outer => runBlock py_Outer_rules lexer tok
  | py_mode_e.MultiSQ => runBlock py_MultiSQ_rules lexer tok
  | py_mode_e.MultiDQ => runBlock py_MultiDQ_rules lexer tok

/-- `Matcher<cpp_mode_e>::Match`; `none` is the failure of `assert(0)`. -/
def Match_cpp (lexer : Lexer cpp_mode_e) (tok : Token) : Option (MatchResult cpp_mode_e) :=
  match lexer.line_mode with
  | cpp_mode_e.Outer => some (runBlock cpp_Outer_rules lexer tok)
  | cpp_mode_e.Comm => none

/-- The `class Matcher<T>`, specialised on `py_mode_e` and `cpp_mode_e`. -/
class Matcher (T : Type) where
  Match : Lexer T → Token → Option (MatchResult T)

instance : Matcher py_mode_e := ⟨fun lexer tok => some (Match_py lexer tok)⟩

instance : Matcher cpp_mode_e := ⟨Match_cpp⟩

/-! ## Printers and `GoodEnough` -/

/-- What the program sends to standard output: the string of an `fputs`, the
bytes of an `fwrite`, and the four fields of the `printf` of `TsvPrinter`. -/
inductive Out where
  | fputs (s : String)
  | fwrite (bytes : List Nat)
  | printf (line_num : Int) (kind : String) (start_col end_col : Int)
  deriving DecidableEq, Repr

/-- The constant `RESET`. -/
def RESET : String := "\x1b[0;0m"

/-- The constant `REVERSE`. -/
def REVERSE : String := "\x1b[7m"

/-- The constant `RED`. -/
def RED : String := "\x1b[31m"

/-- The constant `GREEN`. -/
def GREEN : String := "\x1b[32m"

/-- The constant `BLUE`. -/
def BLUE : String := "\x1b[34m"

/-- The constant `PURPLE`. -/
def PURPLE : String := "\x1b[35m"

/-- The call `fwrite(p_start, 1, num_bytes, stdout)` with `p_start = line +
start_col`: `num_bytes` is an `int`, converted to `size_t`; the bytes come
from the line and its terminating NUL.  A count that reaches past the
terminating NUL makes `fwrite` read outside the buffer, which C leaves
undefined; the embedding then writes no further than the NUL.  This takes
`end_col < start_col`, so a line of `2 ^ 31` bytes or more, and no statement
below rests on it. -/
def fwrite (line : List Nat) (start_col : Int) (num_bytes : Int) : Out :=
  Out.fwrite (((line ++ [0]).drop start_col.toNat).take (wrapSizeT num_bytes).toNat)

/-- `AnsiPrinter::Print`. -/
def AnsiPrinter_Print (more_color : Bool) (line : List Nat) (_line_num : Int)
    (start_col : Int) (tok : Token) : List Out :=
  let num_bytes := wrapInt32 (tok.end_col - start_col)
  match tok.kind with
  | Id.Comm => [Out.fputs BLUE, fwrite line start_col num_bytes, Out.fputs RESET]
  | Id.Name => [fwrite line start_col num_bytes]
  | Id.Other =>
    (if more_color then [Out.fputs PURPLE] else []) ++ [fwrite line start_col num_bytes] ++
      (if more_color then [Out.fputs RESET] else [])
  | Id.DQ => [Out.fputs RED, fwrite line start_col num_bytes, Out.fputs RESET]
  | Id.SQ => [Out.fputs RED, fwrite line start_col num_bytes, Out.fputs RESET]
  | Id.TripleSQ => [Out.fputs GREEN, fwrite line start_col num_bytes, Out.fputs RESET]
  | Id.TripleDQ => [Out.fputs GREEN, fwrite line start_col num_bytes, Out.fputs RESET]
  | Id.Unknown =>
    [Out.fputs REVERSE, Out.fputs RED, fwrite line start_col num_bytes, Out.fputs RESET]
  | Id.WS => [fwrite line start_col num_bytes]

/-- `Id_str`. -/
def Id_str : Id → String
  | Id.Comm => "Comm"
  | Id.WS => "WS"
  | Id.Name => "Name"
  | Id.Other => "Other"
  | Id.DQ => "DQ"
  | Id.SQ => "SQ"
  | Id.TripleSQ => "TripleSQ"
  | Id.TripleDQ => "TripleDQ"
  | Id.Unknown => "Unknown"

/-- `TsvPrinter::Print`. -/
def TsvPrinter_Print (_line : List Nat) (line_num : Int) (start_col : Int) (tok : Token) :
    List Out :=
  [Out.printf line_num (Id_str tok.kind) start_col tok.end_col]

/-- The fields of `struct Flags` that `GoodEnough` reads. -/
structure Flags where
  tsv : Bool
  more_color : Bool
  deriving DecidableEq, Repr

/-- The printer `GoodEnough` creates: `TsvPrinter` with `flag.tsv`, else `AnsiPrinter`. -/
def Printer_Print (flag : Flags) : List Nat → Int → Int → Token → List Out :=
  if flag.tsv then TsvPrinter_Print else AnsiPrinter_Print flag.more_color

/-- How a loop of the embedding ends: normally, by the failure of an
`assert`, or by reaching the bound on its iterations. -/
inductive Outcome (α : Type) where
  | done (a : α)
  | aborted
  | unfinished
  deriving DecidableEq, Repr

/-- The variables of the loop over the tokens of a line. -/
structure LineState (T : Type) where
  lexer : Lexer T
  start_col : Int
  is_significant : Bool
  out : List Out
  deriving DecidableEq, Repr

/-- The `switch (tok.kind)` of `GoodEnough`: `Name` and `Other` are significant. -/
def significant (k : Id) : Bool :=
  match k with
  | Id.Name => true
  | Id.Other => true
  | _ => false

/-- The loop "tokens on each line" of `GoodEnough`; the first argument bounds
the number of calls of `Match`.  The `Token tok` of an iteration starts
uninitialised and `Match` never reads it. -/
def tokenLoop {T : Type} [Matcher T] (flag : Flags) (line : List Nat) (line_num : Int) :
    Nat → LineState T → Outcome (LineState T)
  | 0, _ => Outcome.unfinished
  | fuel + 1, st =>
    match Matcher.Match st.lexer ⟨Id.Unknown, 0⟩ with
    | none => Outcome.aborted
    | some r =>
      if r.eol then Outcome.done { st with lexer := r.lexer }
      else
        tokenLoop flag line line_num fuel
          { lexer := r.lexer,
            start_col := r.tok.end_col,
            is_significant := st.is_significant || significant r.tok.kind,
            out := st.out ++ Printer_Print flag line line_num st.start_col r.tok }

/-- The message `GoodEnough` logs: `line_num - 1` lines, `num_sig` significant. -/
structure Report where
  lines : Int
  significant : Int
  deriving DecidableEq, Repr

/-- What a run of `GoodEnough` that returns 0 has produced. -/
structure Run where
  out : List Out
  log : Report
  deriving DecidableEq, Repr

/-- The loop "read each line" of `GoodEnough` over the lines the reader
delivers, and the final `Log`; `line_num` and `num_sig` are `int`s. -/
def lineLoop {T : Type} [Matcher T] (flag : Flags) :
    List (List Nat) → Lexer T → Int → Int → List Out → Outcome Run
  | [], _, line_num, num_sig, out =>
    Outcome.done { out := out, log := ⟨wrapInt32 (line_num - 1), num_sig⟩ }
  | line :: rest, lexer, line_num, num_sig, out =>
    match tokenLoop flag line line_num (line.length + 1)
        { lexer := lexer.SetLine line, start_col := 0, is_significant := false, out := out } with
    | Outcome.done st =>
      lineLoop flag rest st.lexer (wrapInt32 (line_num + 1))
        (wrapInt32 (num_sig + if st.is_significant then 1 else 0)) st.out
    | Outcome.aborted => Outcome.aborted
    | Outcome.unfinished => Outcome.unfinished

/-- `GoodEnough<T>` on the lines of standard input, read without error. -/
def GoodEnough (T : Type) [LineMode T] [Matcher T] (flag : Flags) (lines : List (List Nat)) :
    Outcome Run :=
  lineLoop flag lines (Lexer.init [] : Lexer T) 1 0 []

/-- The `start_col` and `end_col` of the rows `TsvPrinter` prints. -/
def tsvCols : List Out → List (Int × Int)
  | [] => []
  | Out.printf _ _ s e :: rest => (s, e) :: tsvCols rest
  | _ :: rest => tsvCols rest

/-- The length of the C string at the start of a buffer: the number of bytes
before the first NUL. -/
def strlen (buf : List Nat) : Nat := (buf.takeWhile (fun c => c != 0)).length

/-! ## Inputs of the scenarios about the lexer -/

/-- A line of `2 ^ 31` letters `a`. -/
def longLine : List Nat := List.replicate 2147483648 97

/-- The lexer of `GoodEnough<py_mode_e>` right after `SetLine` on `longLine`. -/
def longLexer : Lexer py_mode_e := (Lexer.init [] : Lexer py_mode_e).SetLine longLine

/-- An input of `2 ^ 31` lines, each a single newline. -/
def manyLines : List (List Nat) := List.replicate 2147483648 [10]

/-- The line `foo = 'bar' # c` with its newline. -/
def sampleLine : List Nat :=
  [102, 111, 111, 32, 61, 32, 39, 98, 97, 114, 39, 32, 35, 32, 99, 10]

/-! ## Auxiliary definitions for the proofs about the lexer -/

/-- No character class and no literal of the expression accepts the NUL byte. -/
def Re.nulFree : Re → Bool
  | Re.cls p => !p 0
  | Re.lit s => s.all (fun c => c != 0)
  | Re.seq r s => r.nulFree && s.nulFree
  | Re.alt r s => r.nulFree && s.nulFree
  | Re.star r => r.nulFree
  | Re.plus r => r.nulFree
  | Re.opt r => r.nulFree

/-- The expression is a single character class. -/
def Re.isCls : Re → Bool
  | Re.cls _ => true
  | _ => false

/-- The shape shared by the re2c blocks of the file: the rule `nul { return
true; }` comes first, no other rule returns, every other rule rejects the NUL
byte or consumes one code unit, and the default rule is present. -/
def GoodBlock {T : Type} (rules : List (Rule T)) : Prop :=
  ∃ others : List (Rule T), rules = ⟨nul, Action.ret_true⟩ :: others ∧
    (∀ r ∈ others, r.act ≠ Action.ret_true) ∧
    (∀ r ∈ others, (r.re.nulFree || r.re.isCls) = true) ∧
    (∃ r ∈ others, r.re = anyUnit)

/-- The tokens a line gives rise to, each with the `start_col` it is printed
with: the arguments of the calls of `Print` in the loop over the tokens. -/
def lineTokens {T : Type} [Matcher T] : Nat → Lexer T → Int → List (Int × Token)
  | 0, _, _ => []
  | fuel + 1, lexer, start_col =>
    match Matcher.Match lexer ⟨Id.Unknown, 0⟩ with
    | none => []
    | some r =>
      if r.eol then [] else (start_col, r.tok) :: lineTokens fuel r.lexer r.tok.end_col

/-- The lexer at the end of the loop over the tokens of a line. -/
def lineEnd {T : Type} [Matcher T] : Nat → Lexer T → Lexer T
  | 0, lexer => lexer
  | fuel + 1, lexer =>
    match Matcher.Match lexer ⟨Id.Unknown, 0⟩ with
    | none => lexer
    | some r => if r.eol then r.lexer else lineEnd fuel r.lexer

/-- The number of lines on which the matcher produces a token of kind `Name`
or `Other`, the lexer being carried from each line to the next. -/
def sigCount {T : Type} [Matcher T] : List (List Nat) → Lexer T → Nat
  | [], _ => 0
  | line :: rest, lexer =>
    (if (lineTokens (line.length + 1) (lexer.SetLine line) 0).any
        (fun c => significant c.2.kind) then 1 else 0) +
      sigCount rest (lineEnd (line.length + 1) (lexer.SetLine line))

/-! ## Auxiliary definitions for the proofs about `RoundUp` -/

/-- Bit `i` of `x` is set exactly when one of the `w` bits of `m` from `i` upwards is. -/
def SmearInv (w x m : Nat) : Prop :=
  ∀ i, x.testBit i = true ↔ ∃ j, j < w ∧ m.testBit (i + j) = true

/-- The five shift-and-or steps of `RoundUp` on a natural number. -/
def smear (m : Nat) : Nat :=
  let n := m ||| (m >>> 1)
  let n := n ||| (n >>> 2)
  let n := n ||| (n >>> 4)
  let n := n ||| (n >>> 8)
  n ||| (n >>> 16)

/-! ## Lemmas about the shift-and-or steps -/

theorem smearInv_one (m : Nat) : SmearInv 1 m m := by
  intro i
  constructor
  · intro h; exact ⟨0, by omega, by simpa using h⟩
  · rintro ⟨j, hj, h⟩
    have : j = 0 := by omega
    subst this; simpa using h

theorem smearInv_step {w x m : Nat} (h : SmearInv w x m) :
    SmearInv (w + w) (x ||| (x >>> w)) m := by
  intro i
  rw [Nat.testBit_or, Nat.testBit_shiftRight, Bool.or_eq_true, h i, h (w + i)]
  constructor
  · rintro (⟨j, hj, hb⟩ | ⟨j, hj, hb⟩)
    · exact ⟨j, by omega, hb⟩
    · refine ⟨w + j, by omega, ?_⟩
      have e : i + (w + j) = w + i + j := by omega
      rw [e]; exact hb
  · rintro ⟨j, hj, hb⟩
    by_cases hjw : j < w
    · exact Or.inl ⟨j, hjw, hb⟩
    · refine Or.inr ⟨j - w, by omega, ?_⟩
      have e : w + i + (j - w) = i + j := by omega
      rw [e]; exact hb

theorem smearInv_smear (m : Nat) : SmearInv 32 (smear m) m :=
  smearInv_step (smearInv_step (smearInv_step (smearInv_step
    (smearInv_step (smearInv_one m)))))

theorem testBit_top {m k : Nat} (hlo : 2 ^ k ≤ m) (hhi : m < 2 ^ (k + 1)) :
    m.testBit k = true := by
  rw [Nat.testBit_to_div_mod]
  have h1 : m / 2 ^ k = 1 := by
    apply Nat.div_eq_of_lt_le
    · simpa using hlo
    · rw [pow_succ] at hhi; omega
  simp [h1]

/-- Below `2 ^ 32` the five steps set every bit under the leading one. -/
theorem smear_eq {m k : Nat} (hk : k < 32) (hlo : 2 ^ k ≤ m) (hhi : m < 2 ^ (k + 1)) :
    smear m = 2 ^ (k + 1) - 1 := by
  apply Nat.eq_of_testBit_eq
  intro i
  rw [Nat.testBit_two_pow_sub_one]
  by_cases hi : i < k + 1
  · have : (smear m).testBit i = true := by
      rw [smearInv_smear m i]
      refine ⟨k - i, by omega, ?_⟩
      have e : i + (k - i) = k := by omega
      rw [e]; exact testBit_top hlo hhi
    simp [this, hi]
  · have : (smear m).testBit i = false := by
      rw [Bool.eq_false_iff]
      intro hc
      rw [smearInv_smear m i] at hc
      obtain ⟨j, _, hb⟩ := hc
      have hlt : m < 2 ^ (i + j) :=
        lt_of_lt_of_le hhi (Nat.pow_le_pow_right (by decide) (by omega))
      rw [Nat.testBit_lt_two_pow hlt] at hb
      exact Bool.noConfusion hb
    simp [this, hi]

theorem wrapInt32_id {x : Int} (hlo : -2 ^ 31 ≤ x) (hhi : x < 2 ^ 31) : wrapInt32 x = x := by
  unfold wrapInt32
  rw [Int.emod_eq_of_lt] <;> omega

theorem RoundUp_small {n : Int} (h : n < 8) : RoundUp n = 8 := by
  simp [RoundUp, h]

theorem RoundUp_nat (m : Nat) (h7 : 7 ≤ m) (hhi : m < 2 ^ 31 - 1) :
    RoundUp ((m : Int) + 1) = wrapInt32 ((smear m : Nat) + 1) := by
  have h8 : ¬ ((m : Int) + 1 < 8) := by omega
  have hw : wrapInt32 ((m : Int) + 1 - 1) = (m : Int) := by
    rw [wrapInt32_id] <;> omega
  simp only [RoundUp, h8, if_false, hw]
  rfl

/-- Between two consecutive powers of two `RoundUp` returns the upper one, as
a 32-bit `int`. -/
theorem RoundUp_between {n : Int} {k : Nat} (h8 : 8 ≤ n) (hint : n < 2 ^ 31) (hk : k < 31)
    (hlo : 2 ^ k < n) (hhi : n ≤ 2 ^ (k + 1)) :
    RoundUp n = wrapInt32 (2 ^ (k + 1)) := by
  obtain ⟨m, rfl⟩ : ∃ m : Nat, n = (m : Int) + 1 := ⟨(n - 1).toNat, by omega⟩
  have hlo' : 2 ^ k ≤ m := by
    have : ((2 ^ k : Nat) : Int) < (m : Int) + 1 := by push_cast; exact hlo
    omega
  have hhi' : m < 2 ^ (k + 1) := by
    have : (m : Int) + 1 ≤ ((2 ^ (k + 1) : Nat) : Int) := by push_cast; exact hhi
    omega
  have hpos : 0 < 2 ^ (k + 1) := Nat.pow_pos (by decide)
  rw [RoundUp_nat m (by omega) (by omega), smear_eq (by omega) hlo' hhi']
  congr 1
  have : ((2 ^ (k + 1) - 1 : Nat) : Int) = ((2 ^ (k + 1) : Nat) : Int) - 1 := by omega
  rw [this]; push_cast; ring

/-- Every `n ≥ 8` lies between two consecutive powers of two. -/
theorem exists_between {n : Int} (h8 : 8 ≤ n) :
    ∃ k : Nat, 2 ≤ k ∧ (2 : Int) ^ k < n ∧ n ≤ 2 ^ (k + 1) := by
  obtain ⟨m, rfl⟩ : ∃ m : Nat, n = (m : Int) + 1 := ⟨(n - 1).toNat, by omega⟩
  have hm : m ≠ 0 := by omega
  have h1 : 2 ^ m.log2 ≤ m := Nat.log2_self_le hm
  have h2 : m < 2 ^ (m.log2 + 1) := Nat.lt_log2_self
  refine ⟨m.log2, ?_, ?_, ?_⟩
  · by_contra hc
    have : m.log2 + 1 ≤ 2 := by omega
    have : 2 ^ (m.log2 + 1) ≤ 2 ^ 2 := Nat.pow_le_pow_right (by decide) this
    omega
  · have : ((2 ^ m.log2 : Nat) : Int) ≤ (m : Int) := by exact_mod_cast h1
    push_cast at this; omega
  · have : (m : Int) < ((2 ^ (m.log2 + 1) : Nat) : Int) := by exact_mod_cast h2
    push_cast at this; omega

/-- Up to `2 ^ 30` the result of `RoundUp` is the upper power of two itself. -/
theorem RoundUp_spec {n : Int} (h8 : 8 ≤ n) (h30 : n ≤ 2 ^ 30) :
    ∃ k : Nat, k < 30 ∧ (2 : Int) ^ k < n ∧ n ≤ 2 ^ (k + 1) ∧ RoundUp n = 2 ^ (k + 1) := by
  obtain ⟨k, _, hlo, hhi⟩ := exists_between h8
  have hk : k < 30 := by
    by_contra hc
    have : (2 : Int) ^ 30 ≤ 2 ^ k := pow_le_pow_right₀ (by norm_num) (by omega)
    omega
  refine ⟨k, hk, hlo, hhi, ?_⟩
  rw [RoundUp_between h8 (by omega) (by omega) hlo hhi]
  apply wrapInt32_id
  · have : (0 : Int) ≤ 2 ^ (k + 1) := by positivity
    omega
  · exact pow_lt_pow_right₀ (by norm_num) (by omega)

/-- Above `2 ^ 30` the increment overflows and the 32-bit result is `-2 ^ 31`. -/
theorem RoundUp_overflow {n : Int} (hlo : 2 ^ 30 < n) (hhi : n < 2 ^ 31) :
    RoundUp n = -2 ^ 31 := by
  have h : RoundUp n = wrapInt32 (2 ^ (30 + 1)) :=
    RoundUp_between (by omega) hhi (by decide) hlo (by omega)
  rw [h]; decide

/-- The result of `RoundUp` up to `2 ^ 30`: a power of two, at least `n` and
at least 8, and below every other such power of two. -/
theorem RoundUp_isLeast {n : Int} (h30 : n ≤ 2 ^ 30) :
    (∃ k : Nat, RoundUp n = 2 ^ k) ∧ max n 8 ≤ RoundUp n ∧
      ∀ j : Nat, max n 8 ≤ 2 ^ j → RoundUp n ≤ 2 ^ j := by
  by_cases h8 : n < 8
  · rw [RoundUp_small h8, max_eq_right (by omega)]
    exact ⟨⟨3, by norm_num⟩, le_refl _, fun j hj => hj⟩
  · have h8' : 8 ≤ n := by omega
    obtain ⟨k, _, hlo, hhi, hr⟩ := RoundUp_spec h8' h30
    rw [hr, max_eq_left h8']
    refine ⟨⟨k + 1, rfl⟩, hhi, fun j hj => ?_⟩
    have hkj : k < j := by
      by_contra hc
      have : (2 : Int) ^ j ≤ 2 ^ k := pow_le_pow_right₀ (by norm_num) (by omega)
      omega
    exact pow_le_pow_right₀ (by norm_num) hkj

theorem RoundUp_le_two_pow_30 {n : Int} (h30 : n ≤ 2 ^ 30) : RoundUp n ≤ 2 ^ 30 :=
  (RoundUp_isLeast h30).2.2 30 (max_le h30 (by norm_num))

theorem wrapSizeT_id {x : Int} (hlo : 0 ≤ x) (hhi : x < 2 ^ 64) : wrapSizeT x = x := by
  unfold wrapSizeT
  exact Int.emod_eq_of_lt hlo hhi

/-- Without overflow `NewSlab` rounds the header size plus the payload size. -/
theorem NewSlab_obj_len_eq (c : Consts) (T : ElemType) {len : Int} (hlen : 0 ≤ len)
    (htot : (c.kSlabHeaderSize : Int) + len * (T.sizeof : Int) < 2 ^ 31) :
    NewSlab_obj_len c T len = RoundUp ((c.kSlabHeaderSize : Int) + len * (T.sizeof : Int)) := by
  have hH : (0 : Int) ≤ (c.kSlabHeaderSize : Int) := Int.natCast_nonneg _
  have hs : (0 : Int) ≤ (T.sizeof : Int) := Int.natCast_nonneg _
  have hp : 0 ≤ len * (T.sizeof : Int) := mul_nonneg hlen hs
  have hprod : wrapSizeT (wrapSizeT len * (T.sizeof : Int)) = len * (T.sizeof : Int) := by
    rcases Nat.eq_zero_or_pos T.sizeof with h0 | h1
    · simp [h0, wrapSizeT]
    · have h1' : (1 : Int) ≤ (T.sizeof : Int) := by exact_mod_cast h1
      have hle : len ≤ len * (T.sizeof : Int) := le_mul_of_one_le_right hlen h1'
      rw [wrapSizeT_id hlen (by omega), wrapSizeT_id hp (by omega)]
  unfold NewSlab_obj_len
  rw [hprod, wrapSizeT_id hH (by omega), wrapSizeT_id (by omega) (by omega),
    wrapInt32_id (by omega) htot]

/-! ## The claims about `gc_slab.h` -/

/-- C1: for every `n ≤ 2 ^ 30`, zero and negative `n` included, `RoundUp n` is
the least power of two that is at least `max n 8`: it is a power of two, it is
at least `max n 8`, and every power of two that is at least `max n 8` is at
least `RoundUp n`.  In particular `RoundUp` maps 1, 7, 8, 9, 16 to
8, 8, 8, 16, 16. -/
theorem RoundUp_least_pow2 (n : Int) (h30 : n ≤ 2 ^ 30) :
    ((∃ k : Nat, RoundUp n = 2 ^ k) ∧ max n 8 ≤ RoundUp n ∧
      ∀ j : Nat, max n 8 ≤ 2 ^ j → RoundUp n ≤ 2 ^ j) ∧
    RoundUp 1 = 8 ∧ RoundUp 7 = 8 ∧ RoundUp 8 = 8 ∧ RoundUp 9 = 16 ∧ RoundUp 16 = 16 :=
  ⟨RoundUp_isLeast h30, by decide, by decide, by decide, by decide, by decide⟩

theorem RoundUp_least_pow2_witness :
    (9 : Int) ≤ 2 ^ 30 ∧
    (((∃ k : Nat, RoundUp 9 = 2 ^ k) ∧ max 9 8 ≤ RoundUp 9 ∧
      ∀ j : Nat, max (9 : Int) 8 ≤ 2 ^ j → RoundUp 9 ≤ 2 ^ j) ∧
    RoundUp 1 = 8 ∧ RoundUp 7 = 8 ∧ RoundUp 8 = 8 ∧ RoundUp 9 = 16 ∧ RoundUp 16 = 16) :=
  ⟨by decide, RoundUp_least_pow2 9 (by decide)⟩

/-- C2, as stated, fails: with a header of 8 bytes the payloads of 1, 7, 8, 9
and 16 bytes round to 16, 16, 16, 32 and 32, and with any positive header size
a payload of 8 bytes does not round to 8. -/
theorem NewSlab_payload_rounding_fails :
    ¬ (∀ c : Consts, 0 < c.kSlabHeaderSize →
        NewSlab_obj_len c ⟨false, 1⟩ 1 = 8 ∧ NewSlab_obj_len c ⟨false, 1⟩ 7 = 8 ∧
        NewSlab_obj_len c ⟨false, 1⟩ 8 = 8 ∧ NewSlab_obj_len c ⟨false, 1⟩ 9 = 16 ∧
        NewSlab_obj_len c ⟨false, 1⟩ 16 = 16) ∧
    (NewSlab_obj_len ⟨8, 0, 0⟩ ⟨false, 1⟩ 1 = 16 ∧ NewSlab_obj_len ⟨8, 0, 0⟩ ⟨false, 1⟩ 7 = 16 ∧
      NewSlab_obj_len ⟨8, 0, 0⟩ ⟨false, 1⟩ 8 = 16 ∧ NewSlab_obj_len ⟨8, 0, 0⟩ ⟨false, 1⟩ 9 = 32 ∧
      NewSlab_obj_len ⟨8, 0, 0⟩ ⟨false, 1⟩ 16 = 32) ∧
    (∀ c : Consts, 0 < c.kSlabHeaderSize → (c.kSlabHeaderSize : Int) + 8 ≤ 2 ^ 30 →
      NewSlab_obj_len c ⟨false, 1⟩ 8 ≠ 8) := by
  refine ⟨fun h => ?_, by decide, fun c hpos hle hc => ?_⟩
  · have h8 := (h ⟨8, 0, 0⟩ (by decide)).1
    revert h8; decide
  · have hpos' : (0 : Int) < (c.kSlabHeaderSize : Int) := by exact_mod_cast hpos
    have e := NewSlab_obj_len_eq c ⟨false, 1⟩ (show (0 : Int) ≤ 8 by norm_num)
      (by simp only [Nat.cast_one, mul_one]; omega)
    simp only [Nat.cast_one, mul_one] at e
    have hge := (RoundUp_isLeast hle).2.1
    rw [← e, hc] at hge
    have := le_trans (le_max_left _ _) hge
    omega

/-- C2, amended: the rounded byte length `NewSlab` computes is determined by
the total of header and payload; a total of at most 8 bytes (so 1, 7 and 8)
gives 8 and a total from 9 to 16 bytes (so 9 and 16) gives 16. -/
theorem NewSlab_obj_len_of_total (c : Consts) (T : ElemType) (len : Int) (hlen : 0 ≤ len)
    (h16 : (c.kSlabHeaderSize : Int) + len * (T.sizeof : Int) ≤ 16) :
    NewSlab_obj_len c T len =
      if (c.kSlabHeaderSize : Int) + len * (T.sizeof : Int) ≤ 8 then 8 else 16 := by
  rw [NewSlab_obj_len_eq c T hlen (by omega)]
  generalize (c.kSlabHeaderSize : Int) + len * (T.sizeof : Int) = t at h16 ⊢
  by_cases h8 : t < 8
  · rw [RoundUp_small h8, if_pos (by omega)]
  · obtain ⟨m, rfl⟩ : ∃ m : Nat, t = (m : Int) + 8 := ⟨(t - 8).toNat, by omega⟩
    have hm : m ≤ 8 := by omega
    interval_cases m <;> decide

theorem NewSlab_obj_len_of_total_witness :
    (0 : Int) ≤ 5 ∧ (((⟨8, 0, 0⟩ : Consts).kSlabHeaderSize : Int) +
        5 * (((⟨false, 1⟩ : ElemType).sizeof : Nat) : Int) ≤ 16) ∧
      NewSlab_obj_len ⟨8, 0, 0⟩ ⟨false, 1⟩ 5 =
        if (((⟨8, 0, 0⟩ : Consts).kSlabHeaderSize : Int) +
          5 * (((⟨false, 1⟩ : ElemType).sizeof : Nat) : Int) ≤ 8) then 8 else 16 :=
  ⟨by decide, by decide, NewSlab_obj_len_of_total ⟨8, 0, 0⟩ ⟨false, 1⟩ 5 (by decide) (by decide)⟩

/-- C3, as stated, fails: 1, 2 and 4 are powers of two and `RoundUp` maps them to 8. -/
theorem RoundUp_pow2_below_floor :
    RoundUp (2 ^ 0) ≠ 2 ^ 0 ∧ RoundUp (2 ^ 0) = 8 ∧ RoundUp (2 ^ 1) = 8 ∧ RoundUp (2 ^ 2) = 8 := by
  decide

/-- C3, amended: for a power of two `2 ^ k` with `k ≤ 30`, `RoundUp` returns
its argument exactly when `3 ≤ k`, that is, from the floor of 8 upwards. -/
theorem RoundUp_pow2_fixed (k : Nat) (h30 : k ≤ 30) :
    (3 ≤ k → RoundUp (2 ^ k) = 2 ^ k) ∧ (RoundUp (2 ^ k) = 2 ^ k → 3 ≤ k) := by
  interval_cases k <;> decide

theorem RoundUp_pow2_fixed_witness :
    5 ≤ 30 ∧ ((3 ≤ 5 → RoundUp (2 ^ 5) = 2 ^ 5) ∧ (RoundUp (2 ^ 5) = 2 ^ 5 → 3 ≤ 5)) :=
  ⟨by decide, RoundUp_pow2_fixed 5 (by decide)⟩

/-- C4: `RoundUp` is monotonic up to `2 ^ 30`: `m ≤ n ≤ 2 ^ 30` gives
`RoundUp m ≤ RoundUp n`. -/
theorem RoundUp_monotone (m n : Int) (hmn : m ≤ n) (h30 : n ≤ 2 ^ 30) :
    RoundUp m ≤ RoundUp n := by
  obtain ⟨⟨j, hj⟩, hge, _⟩ := RoundUp_isLeast h30
  have hm := (RoundUp_isLeast (le_trans hmn h30)).2.2 j
  rw [hj] at hge ⊢
  exact hm (le_trans (max_le_max hmn (le_refl _)) hge)

theorem RoundUp_monotone_witness :
    (9 : Int) ≤ 17 ∧ (17 : Int) ≤ 2 ^ 30 ∧ RoundUp 9 ≤ RoundUp 17 :=
  ⟨by decide, by decide, RoundUp_monotone 9 17 (by decide) (by decide)⟩

/-- C5, as stated, fails: `2 ^ 30 + 1` is a 32-bit `int`, and `RoundUp` maps it
to `-2 ^ 31`, which is smaller. -/
theorem RoundUp_not_ge :
    (-2 ^ 31 : Int) ≤ 2 ^ 30 + 1 ∧ (2 ^ 30 + 1 : Int) < 2 ^ 31 ∧
      RoundUp (2 ^ 30 + 1) = -2 ^ 31 ∧ ¬ ((2 ^ 30 + 1 : Int) ≤ RoundUp (2 ^ 30 + 1)) := by
  decide

/-- C5, amended: for a 32-bit `int` `n`, `RoundUp n ≥ n` holds exactly when
`n ≤ 2 ^ 30`. -/
theorem RoundUp_ge_iff (n : Int) (hhi : n < 2 ^ 31) :
    n ≤ RoundUp n ↔ n ≤ 2 ^ 30 := by
  constructor
  · intro h
    by_contra hc
    rw [RoundUp_overflow (by omega) hhi] at h
    omega
  · intro h
    exact le_trans (le_max_left _ _) (RoundUp_isLeast h).2.1

theorem RoundUp_ge_iff_witness :
    (1000 : Int) < 2 ^ 31 ∧ ((1000 : Int) ≤ RoundUp 1000 ↔ (1000 : Int) ≤ 2 ^ 30) :=
  ⟨by decide, RoundUp_ge_iff 1000 (by decide)⟩

/-- C6: the header written by the constructor of `Slab<T>` has scan tag
`Scanned` exactly when `T` is a pointer type and `Opaque` otherwise, type tag
`kSlabTypeTag`, mask `kZeroMask` and byte length `obj_len`. -/
theorem Slab_header (c : Consts) (T : ElemType) (obj_len : Int) :
    ((Slab c T obj_len).heap_tag = Tag.Scanned ↔ T.is_pointer = true) ∧
    ((Slab c T obj_len).heap_tag = Tag.Opaque ↔ T.is_pointer = false) ∧
    (Slab c T obj_len).type_tag = c.kSlabTypeTag ∧
    (Slab c T obj_len).field_mask = c.kZeroMask ∧
    (Slab c T obj_len).obj_len = obj_len := by
  cases hT : T.is_pointer <;> simp [Slab, hT]

/-- C7: for `len ≥ 0` with `kSlabHeaderSize + len * sizeof(T) ≤ 2 ^ 30`,
`NewSlab<T>(len)` passes to `Allocate` exactly the byte length it records in
the header, and that length is a power of two that is at least
`kSlabHeaderSize + len * sizeof(T)`. -/
theorem NewSlab_fits (c : Consts) (T : ElemType) (len : Int) (hlen : 0 ≤ len)
    (htot : (c.kSlabHeaderSize : Int) + len * (T.sizeof : Int) ≤ 2 ^ 30) :
    (NewSlab c T len).header_.obj_len = (NewSlab c T len).allocate_arg ∧
    (∃ k : Nat, (NewSlab c T len).allocate_arg = 2 ^ k) ∧
    (c.kSlabHeaderSize : Int) + len * (T.sizeof : Int) ≤ (NewSlab c T len).allocate_arg := by
  have e : (NewSlab c T len).allocate_arg =
      RoundUp ((c.kSlabHeaderSize : Int) + len * (T.sizeof : Int)) :=
    NewSlab_obj_len_eq c T hlen (by omega)
  have e2 : (NewSlab c T len).header_.obj_len = wrapUInt32 (NewSlab c T len).allocate_arg := rfl
  obtain ⟨hpow, hge, _⟩ := RoundUp_isLeast htot
  have hle := RoundUp_le_two_pow_30 htot
  rw [e2, e]
  refine ⟨?_, hpow, le_trans (le_max_left _ _) hge⟩
  have h8 := le_trans (le_max_right _ _) hge
  unfold wrapUInt32
  exact Int.emod_eq_of_lt (by omega) (by omega)

theorem NewSlab_fits_witness :
    (0 : Int) ≤ 3 ∧
    (((⟨8, 0, 0⟩ : Consts).kSlabHeaderSize : Int) +
        3 * (((⟨true, 8⟩ : ElemType).sizeof : Nat) : Int) ≤ 2 ^ 30) ∧
    ((NewSlab ⟨8, 0, 0⟩ ⟨true, 8⟩ 3).header_.obj_len = (NewSlab ⟨8, 0, 0⟩ ⟨true, 8⟩ 3).allocate_arg ∧
    (∃ k : Nat, (NewSlab ⟨8, 0, 0⟩ ⟨true, 8⟩ 3).allocate_arg = 2 ^ k) ∧
    (((⟨8, 0, 0⟩ : Consts).kSlabHeaderSize : Int) +
        3 * (((⟨true, 8⟩ : ElemType).sizeof : Nat) : Int) ≤
      (NewSlab ⟨8, 0, 0⟩ ⟨true, 8⟩ 3).allocate_arg)) :=
  ⟨by decide, by decide, NewSlab_fits ⟨8, 0, 0⟩ ⟨true, 8⟩ 3 (by decide) (by decide)⟩


/-! ## Lemmas about the registry -/

theorem lookup_mem {reg : List (Addr × Obj)} {a : Addr} {o : Obj}
    (hl : reg.lookup a = some o) : (a, o) ∈ reg := by
  induction reg with
  | nil => simp at hl
  | cons e reg ih =>
    obtain ⟨k, ob⟩ := e
    rw [List.lookup_cons] at hl
    by_cases hk : a = k
    · subst hk
      simp at hl
      simp [hl]
    · have : (a == k) = false := by simpa using hk
      rw [this] at hl
      exact List.mem_cons_of_mem _ (ih hl)

theorem lookup_isSome_of_mem {reg : List (Addr × Obj)} {a : Addr} {o : Obj}
    (hm : (a, o) ∈ reg) : (reg.lookup a).isSome = true := by
  induction reg with
  | nil => simp at hm
  | cons e reg ih =>
    obtain ⟨k, ob⟩ := e
    rw [List.lookup_cons]
    by_cases hk : a = k
    · subst hk; simp
    · have hb : (a == k) = false := by simpa using hk
      rw [hb]
      rcases List.mem_cons.1 hm with heq | hmem
      · exact absurd (congrArg Prod.fst heq) hk
      · exact ih hmem

/-- Filtering the registry by address keeps or drops an address as a whole. -/
theorem lookup_filter_key (reg : List (Addr × Obj)) (p : Addr → Bool) (a : Addr) :
    (reg.filter (fun e => p e.1)).lookup a = if p a = true then reg.lookup a else none := by
  induction reg with
  | nil => simp
  | cons e reg ih =>
    obtain ⟨k, ob⟩ := e
    by_cases hk : a = k
    · subst hk
      cases hp : p a
      · simp [List.filter_cons, hp, ih]
      · simp [List.filter_cons, hp, List.lookup_cons]
    · have hb : (a == k) = false := by simpa using hk
      cases hp : p k
      · simp [List.filter_cons, hp, ih, List.lookup_cons, hb]
      · simp [List.filter_cons, hp, ih, List.lookup_cons, hb]

/-! ## Lemmas about the fuel of the mark loop -/

theorem sum_filter_le {α : Type} (l : List α) (p q : α → Bool) (f : α → Nat)
    (hpq : ∀ x, p x = true → q x = true) :
    ((l.filter p).map f).sum ≤ ((l.filter q).map f).sum := by
  induction l with
  | nil => simp
  | cons e l ih =>
    cases hp : p e
    · cases hq : q e
      · simpa [List.filter_cons, hp, hq] using ih
      · simp only [List.filter_cons, hp, hq, Bool.false_eq_true, if_false, if_true,
          List.map_cons, List.sum_cons]
        omega
    · have hq := hpq e hp
      simp only [List.filter_cons, hp, hq, if_true, List.map_cons, List.sum_cons]
      omega

theorem sum_filter_add_le {α : Type} (l : List α) (p q : α → Bool) (f : α → Nat)
    (hpq : ∀ x, p x = true → q x = true) (x : α) (hx : x ∈ l) (hqx : q x = true)
    (hpx : p x = false) :
    ((l.filter p).map f).sum + f x ≤ ((l.filter q).map f).sum := by
  induction l with
  | nil => simp at hx
  | cons e l ih =>
    rcases List.mem_cons.1 hx with heq | hmem
    · subst heq
      have hm := sum_filter_le l p q f hpq
      simp only [List.filter_cons, hpx, hqx, Bool.false_eq_true, if_false, if_true,
        List.map_cons, List.sum_cons]
      omega
    · have ih' := ih hmem
      cases hp : p e
      · cases hq : q e
        · simpa [List.filter_cons, hp, hq] using ih'
        · simp only [List.filter_cons, hp, hq, Bool.false_eq_true, if_false, if_true,
            List.map_cons, List.sum_cons]
          omega
      · have hq := hpq e hp
        simp only [List.filter_cons, hp, hq, if_true, List.map_cons, List.sum_cons]
        omega

theorem unmarkedSlots_mark (h : Heap) (a : Addr) (o : Obj) (marked : List Addr)
    (hl : h.registry.lookup a = some o) (ha : a ∉ marked) :
    unmarkedSlots h (a :: marked) + o.payload.length ≤ unmarkedSlots h marked := by
  unfold unmarkedSlots
  refine sum_filter_add_le h.registry _ _ (fun e => e.2.payload.length) ?_ (a, o)
    (lookup_mem hl) ?_ ?_
  · intro x hx
    simp only [List.mem_cons, not_or, decide_eq_true_eq] at hx ⊢
    exact hx.2
  · simpa using ha
  · simp

theorem children_length_le (h : Heap) (o : Obj) : (children h o).length ≤ o.payload.length := by
  unfold children scanSlots
  cases o.header.heap_tag
  · exact List.length_filter_le _ _
  · simp

theorem mem_children {h : Heap} {o : Obj} {b : Addr} :
    b ∈ children h o ↔ o.header.heap_tag = Tag.Scanned ∧ b ∈ o.payload ∧ tracked h b = true := by
  unfold children scanSlots
  cases ht : o.header.heap_tag <;> simp [List.mem_filter]

/-! ## Correctness of the mark loop -/

/-- The mark loop marks reachable allocations only. -/
theorem markLoop_sound (h : Heap) : ∀ (fuel : Nat) (work marked : List Addr),
    (∀ a ∈ work, tracked h a = true → Reachable h a) → (∀ a ∈ marked, Reachable h a) →
    ∀ a ∈ markLoop h fuel work marked, Reachable h a := by
  intro fuel
  induction fuel with
  | zero => intro work marked _ hm a ha; exact hm a ha
  | succ fuel ih =>
    intro work marked hw hm
    cases work with
    | nil => intro a ha; exact hm a ha
    | cons x work =>
      have hw' : ∀ a ∈ work, tracked h a = true → Reachable h a :=
        fun a ha => hw a (List.mem_cons_of_mem _ ha)
      by_cases hx : x ∈ marked
      · simp only [markLoop, hx, if_true]
        exact ih work marked hw' hm
      · cases hl : h.registry.lookup x with
        | none =>
          simp only [markLoop, hx, if_false, hl]
          exact ih work marked hw' hm
        | some o =>
          simp only [markLoop, hx, if_false, hl]
          have hxr : Reachable h x := hw x (List.mem_cons_self _ _) (by simp [tracked, hl])
          apply ih
          · intro a ha ht
            rcases List.mem_append.1 ha with hc | hwk
            · obtain ⟨hs, hp, _⟩ := mem_children.1 (List.mem_reverse.1 hc)
              exact Reachable.slot hxr hl hs hp ht
            · exact hw' a hwk ht
          · intro a ha
            rcases List.mem_cons.1 ha with rfl | ha'
            · exact hxr
            · exact hm a ha'

/-- With enough fuel the mark loop keeps the old marks, marks every tracked
work-list entry, and marks the children of everything it newly marks. -/
theorem markLoop_complete (h : Heap) : ∀ (fuel : Nat) (work marked : List Addr),
    work.length + unmarkedSlots h marked ≤ fuel →
    (∀ a ∈ marked, a ∈ markLoop h fuel work marked) ∧
    (∀ a ∈ work, tracked h a = true → a ∈ markLoop h fuel work marked) ∧
    (∀ a ∈ markLoop h fuel work marked, a ∉ marked →
      ∀ o, h.registry.lookup a = some o → ∀ b ∈ children h o,
        b ∈ markLoop h fuel work marked) := by
  intro fuel
  induction fuel with
  | zero =>
    intro work marked hf
    have hw : work = [] := List.length_eq_zero.1 (by omega)
    subst hw
    refine ⟨fun a ha => ha, fun a ha => absurd ha (List.not_mem_nil a), ?_⟩
    intro a ha hna
    exact absurd ha hna
  | succ fuel ih =>
    intro work marked hf
    cases work with
    | nil =>
      refine ⟨fun a ha => ha, fun a ha => absurd ha (List.not_mem_nil a), ?_⟩
      intro a ha hna
      exact absurd ha hna
    | cons x work =>
      simp only [List.length_cons] at hf
      by_cases hx : x ∈ marked
      · simp only [markLoop, hx, if_true]
        obtain ⟨h1, h2, h3⟩ := ih work marked (by omega)
        refine ⟨h1, ?_, h3⟩
        intro a ha ht
        rcases List.mem_cons.1 ha with rfl | ha'
        · exact h1 a hx
        · exact h2 a ha' ht
      · cases hl : h.registry.lookup x with
        | none =>
          simp only [markLoop, hx, if_false, hl]
          obtain ⟨h1, h2, h3⟩ := ih work marked (by omega)
          refine ⟨h1, ?_, h3⟩
          intro a ha ht
          rcases List.mem_cons.1 ha with rfl | ha'
          · simp [tracked, hl] at ht
          · exact h2 a ha' ht
        | some o =>
          simp only [markLoop, hx, if_false, hl]
          have hfuel : ((children h o).reverse ++ work).length + unmarkedSlots h (x :: marked)
              ≤ fuel := by
            have e1 := unmarkedSlots_mark h x o marked hl hx
            have e2 := children_length_le h o
            simp only [List.length_append, List.length_reverse]
            omega
          obtain ⟨h1, h2, h3⟩ := ih ((children h o).reverse ++ work) (x :: marked) hfuel
          refine ⟨fun a ha => h1 a (List.mem_cons_of_mem _ ha), ?_, ?_⟩
          · intro a ha ht
            rcases List.mem_cons.1 ha with rfl | ha'
            · exact h1 a (List.mem_cons_self _ _)
            · exact h2 a (List.mem_append_right _ ha') ht
          · intro a ha hna o' hl' b hb
            by_cases hax : a = x
            · subst hax
              rw [hl] at hl'
              cases hl'
              exact h2 b (List.mem_append_left _ (List.mem_reverse.2 hb))
                (mem_children.1 hb).2.2
            · exact h3 a ha (by simp [hax, hna]) o' hl' b hb

theorem mem_seed {h : Heap} {a : Addr} :
    a ∈ seed h ↔ (∃ v, v ∈ h.roots ∧ h.vars.lookup v = some a) ∧ tracked h a = true := by
  simp [seed, rootPointers, List.mem_filter, List.mem_filterMap]

/-- Started between two collections, the mark phase marks exactly the
reachable allocations. -/
theorem mem_marks_Mark (h : Heap) (hm : h.marks = []) (a : Addr) :
    a ∈ (Mark h).marks ↔ Reachable h a := by
  have hfuel : (seed h).length + unmarkedSlots h [] ≤ markFuel h := by
    simp [markFuel, unmarkedSlots]
  obtain ⟨_, h2, h3⟩ := markLoop_complete h (markFuel h) (seed h) [] hfuel
  simp only [Mark, hm]
  constructor
  · apply markLoop_sound
    · intro b hb ht
      obtain ⟨⟨v, hv, hl⟩, _⟩ := mem_seed.1 hb
      exact Reachable.root hv hl ht
    · intro b hb
      exact absurd hb (List.not_mem_nil b)
  · intro hr
    induction hr with
    | root hv hl ht => exact h2 _ (mem_seed.2 ⟨⟨_, hv, hl⟩, ht⟩) ht
    | slot _ hl hs hp ht ih =>
      exact h3 _ ih (List.not_mem_nil _) _ hl _ (mem_children.2 ⟨hs, hp, ht⟩)

/-! ## Consequences for `Collect` -/

theorem Collect_registry (h : Heap) :
    (Collect h).registry = h.registry.filter (fun e => decide (e.1 ∈ (Mark h).marks)) := rfl

theorem Collect_roots (h : Heap) : (Collect h).roots = h.roots := rfl

theorem Collect_vars (h : Heap) : (Collect h).vars = h.vars := rfl

theorem Collect_marks (h : Heap) : (Collect h).marks = [] := rfl

/-- After `Collect` an address is looked up as before if it was reachable and
is no longer tracked otherwise. -/
theorem lookup_Collect (h : Heap) (hm : h.marks = []) (a : Addr) :
    ((Collect h).registry.lookup a = h.registry.lookup a ∧ Reachable h a) ∨
    ((Collect h).registry.lookup a = none ∧ ¬ Reachable h a) := by
  rw [Collect_registry, lookup_filter_key h.registry (fun k => decide (k ∈ (Mark h).marks)) a]
  by_cases hr : Reachable h a
  · left
    have : a ∈ (Mark h).marks := (mem_marks_Mark h hm a).2 hr
    simp [this, hr]
  · right
    have : a ∉ (Mark h).marks := fun hc => hr ((mem_marks_Mark h hm a).1 hc)
    simp [this, hr]

theorem lookup_Collect_of_reachable (h : Heap) (hm : h.marks = []) {a : Addr}
    (hr : Reachable h a) : (Collect h).registry.lookup a = h.registry.lookup a := by
  rcases lookup_Collect h hm a with ⟨e, _⟩ | ⟨_, hn⟩
  · exact e
  · exact absurd hr hn

theorem mem_Collect_registry (h : Heap) (hm : h.marks = []) (a : Addr) (o : Obj) :
    (a, o) ∈ (Collect h).registry ↔ (a, o) ∈ h.registry ∧ Reachable h a := by
  rw [Collect_registry, List.mem_filter]
  simp only [decide_eq_true_eq]
  rw [mem_marks_Mark h hm a]

theorem unmarkedSlots_le (h : Heap) (marked : List Addr) :
    unmarkedSlots h marked ≤ (h.registry.map (fun e => e.2.payload.length)).sum := by
  have := sum_filter_le h.registry (fun e => decide (e.1 ∉ marked)) (fun _ => true)
    (fun e => e.2.payload.length) (by simp)
  simpa [unmarkedSlots] using this

/-- Whatever marks are set, the mark phase marks every allocation of the seed. -/
theorem seed_subset_marks (h : Heap) {a : Addr} (ha : a ∈ seed h) : a ∈ (Mark h).marks := by
  have hfuel : (seed h).length + unmarkedSlots h h.marks ≤ markFuel h := by
    have := unmarkedSlots_le h h.marks
    simp only [markFuel]
    omega
  exact (markLoop_complete h (markFuel h) (seed h) h.marks hfuel).2.1 a ha (mem_seed.1 ha).2

theorem tracked_of_lookup {h : Heap} {a : Addr} {o : Obj} (hl : h.registry.lookup a = some o) :
    tracked h a = true := by
  simp [tracked, hl]

/-- Between two collections, `Collect` leaves every lookup as it was or turns
it into a miss, and it leaves the lookup of a reachable address as it was. -/
theorem lookup_Collect_untracked (h : Heap) (hm : h.marks = []) {a : Addr}
    (hn : Reachable h a ∨ h.registry.lookup a = none) :
    (Collect h).registry.lookup a = h.registry.lookup a := by
  rcases lookup_Collect h hm a with ⟨e, _⟩ | ⟨e, hnr⟩
  · exact e
  · rcases hn with hr | hnone
    · exact absurd hr hnr
    · rw [e, hnone]

/-- The elements of a list depend on the lookups of the list and of its slab only. -/
theorem listItems_congr (h h2 : Heap) (l : Addr) (items : List Addr)
    (hit : listItems h l = some items)
    (hsame : ∀ a o, h.registry.lookup a = some o → Reachable h a →
      h2.registry.lookup a = some o)
    (hl : Reachable h l) :
    listItems h2 l = some items ∧
    ∃ len slab t1 m1 n1 t2 m2 n2 its,
      h.registry.lookup l = some ⟨⟨Tag.Scanned, t1, m1, n1⟩, [len, slab]⟩ ∧
      h.registry.lookup slab = some ⟨⟨Tag.Scanned, t2, m2, n2⟩, its⟩ ∧
      items = its.take len := by
  unfold listItems at hit
  split at hit
  · rename_i t1 m1 n1 len slab hll
    split at hit
    · rename_i t2 m2 n2 its hls
      split at hit
      · rename_i hlen
        have hitems : items = its.take len := by
          simp only [Option.some.injEq] at hit
          exact hit.symm
        have hslab : Reachable h slab :=
          Reachable.slot hl hll rfl (by simp) (tracked_of_lookup hls)
        refine ⟨?_, len, slab, t1, m1, n1, t2, m2, n2, its, hll, hls, hitems⟩
        unfold listItems
        rw [hsame l _ hll hl]
        simp only
        rw [hsame slab _ hls hslab]
        simp only [hlen, if_true, hitems]
      · simp at hit
    · simp at hit
  · simp at hit

/-! ## The claims about `Collect` -/

/-- C8 (P1, liveness): an allocation whose holding variable is registered in the
Root Set when `Collect` is called is not reclaimed: it stays in the registry at
the same address with the same content, and the variable still points to it. -/
theorem Collect_keeps_rooted (h : Heap) (v a : Addr) (o : Obj) (hv : v ∈ h.roots)
    (hva : h.vars.lookup v = some a) (ho : h.registry.lookup a = some o) :
    (Collect h).registry.lookup a = some o ∧ (a, o) ∈ (Collect h).registry ∧
      (Collect h).vars.lookup v = some a := by
  have hs : a ∈ seed h := mem_seed.2 ⟨⟨v, hv, hva⟩, tracked_of_lookup ho⟩
  have hmk : a ∈ (Mark h).marks := seed_subset_marks h hs
  have hlk : (Collect h).registry.lookup a = some o := by
    rw [Collect_registry, lookup_filter_key h.registry (fun k => decide (k ∈ (Mark h).marks)) a]
    simp [hmk, ho]
  exact ⟨hlk, lookup_mem hlk, hva⟩

theorem Collect_keeps_rooted_witness :
    10 ∈ stringTestHeap.roots ∧ stringTestHeap.vars.lookup 10 = some 1000 ∧
    stringTestHeap.registry.lookup 1000 = some strFoo ∧
    ((Collect stringTestHeap).registry.lookup 1000 = some strFoo ∧
      (1000, strFoo) ∈ (Collect stringTestHeap).registry ∧
      (Collect stringTestHeap).vars.lookup 10 = some 1000) :=
  ⟨by decide, by decide, by decide,
    Collect_keeps_rooted stringTestHeap 10 1000 strFoo (by decide) (by decide) (by decide)⟩

/-- C9 (P4, container survival): for a list of references held by a registered
variable, called between two collections `Collect` leaves the variable, the
list's length and elements (the addresses of the strings) and the content
found at every element's address as they were. -/
theorem Collect_keeps_list (h : Heap) (hm : h.marks = []) (v l : Addr) (items : List Addr)
    (hv : v ∈ h.roots) (hvl : h.vars.lookup v = some l) (hit : listItems h l = some items) :
    (Collect h).vars.lookup v = some l ∧ listItems (Collect h) l = some items ∧
      ∀ e ∈ items, (Collect h).registry.lookup e = h.registry.lookup e := by
  have hlt : tracked h l = true := by
    unfold listItems at hit
    cases hll : h.registry.lookup l with
    | none => simp [hll] at hit
    | some o => exact tracked_of_lookup hll
  have hl : Reachable h l := Reachable.root hv hvl hlt
  have hsame : ∀ a o, h.registry.lookup a = some o → Reachable h a →
      (Collect h).registry.lookup a = some o := by
    intro a o hlo hr
    rw [lookup_Collect_of_reachable h hm hr, hlo]
  obtain ⟨hres, len, slab, t1, m1, n1, t2, m2, n2, its, hll, hls, hitems⟩ :=
    listItems_congr h (Collect h) l items hit hsame hl
  refine ⟨hvl, hres, ?_⟩
  intro e he
  apply lookup_Collect_untracked h hm
  cases hle : h.registry.lookup e with
  | none => exact Or.inr rfl
  | some s =>
    left
    have hslab : Reachable h slab :=
      Reachable.slot hl hll rfl (by simp) (tracked_of_lookup hls)
    have hmem : e ∈ its := by
      rw [hitems] at he
      exact List.mem_of_mem_take he
    exact Reachable.slot hslab hls rfl hmem (tracked_of_lookup hle)

theorem Collect_keeps_list_witness :
    listTestHeap.marks = [] ∧ 30 ∈ listTestHeap.roots ∧
    listTestHeap.vars.lookup 30 = some 3000 ∧
    listItems listTestHeap 3000 = some [1000, 2000] ∧
    ((Collect listTestHeap).vars.lookup 30 = some 3000 ∧
      listItems (Collect listTestHeap) 3000 = some [1000, 2000] ∧
      ∀ e ∈ [1000, 2000],
        (Collect listTestHeap).registry.lookup e = listTestHeap.registry.lookup e) :=
  ⟨by decide, by decide, by decide, by decide,
    Collect_keeps_list listTestHeap (by decide) 30 3000 [1000, 2000] (by decide) (by decide)
      (by decide)⟩

/-- C10 (P2, reclamation and exactness): called between two collections,
`Collect` leaves in the registry exactly the allocations reachable from the
Root Set through the slots of Scanned objects, in their order; an allocation
that no registered variable points to and that no slot of a reachable Scanned
object refers to is removed. -/
theorem Collect_registry_exact (h : Heap) (hm : h.marks = []) :
    (∀ a o, (a, o) ∈ (Collect h).registry ↔ (a, o) ∈ h.registry ∧ Reachable h a) ∧
    (Collect h).registry.Sublist h.registry ∧
    (∀ a, (∀ v, v ∈ h.roots → h.vars.lookup v ≠ some a) →
      (∀ b ob, Reachable h b → h.registry.lookup b = some ob →
        ob.header.heap_tag = Tag.Scanned → a ∉ ob.payload) →
      (Collect h).registry.lookup a = none ∧ ∀ o, (a, o) ∉ (Collect h).registry) := by
  refine ⟨mem_Collect_registry h hm, ?_, ?_⟩
  · rw [Collect_registry]
    exact List.filter_sublist _
  · intro a hroot hslot
    have hnr : ¬ Reachable h a := by
      intro hr
      cases hr with
      | root hv hl _ => exact hroot _ hv hl
      | slot hb hl hs hp _ => exact hslot _ _ hb hl hs hp
    refine ⟨?_, fun o hmem => hnr ((mem_Collect_registry h hm a o).1 hmem).2⟩
    rcases lookup_Collect h hm a with ⟨_, hr⟩ | ⟨e, _⟩
    · exact absurd hr hnr
    · exact e

theorem Collect_registry_exact_witness :
    opaqueTestHeap.marks = [] ∧
    ((∀ a o, (a, o) ∈ (Collect opaqueTestHeap).registry ↔
        (a, o) ∈ opaqueTestHeap.registry ∧ Reachable opaqueTestHeap a) ∧
    (Collect opaqueTestHeap).registry.Sublist opaqueTestHeap.registry ∧
    (∀ a, (∀ v, v ∈ opaqueTestHeap.roots → opaqueTestHeap.vars.lookup v ≠ some a) →
      (∀ b ob, Reachable opaqueTestHeap b → opaqueTestHeap.registry.lookup b = some ob →
        ob.header.heap_tag = Tag.Scanned → a ∉ ob.payload) →
      (Collect opaqueTestHeap).registry.lookup a = none ∧
        ∀ o, (a, o) ∉ (Collect opaqueTestHeap).registry)) ∧
    (Collect opaqueTestHeap).registry =
      [(1000, ⟨⟨Tag.Scanned, 2, 0, 24⟩, [2000, 0]⟩), (2000, ⟨⟨Tag.Opaque, 1, 0, 16⟩, [3000]⟩)] :=
  ⟨by decide, Collect_registry_exact opaqueTestHeap (by decide), by decide⟩


/-! ## A second collection -/

/-- What is reachable before a collection is reachable after it. -/
theorem Reachable_Collect (h : Heap) (hm : h.marks = []) {a : Addr} (hr : Reachable h a) :
    Reachable (Collect h) a := by
  induction hr with
  | root hv hl ht =>
    refine Reachable.root hv hl ?_
    have hr' : Reachable h _ := Reachable.root hv hl ht
    unfold tracked at ht ⊢
    rw [lookup_Collect_of_reachable h hm hr']
    exact ht
  | slot hra hl hs hp ht ih =>
    have hrb : Reachable h _ := Reachable.slot hra hl hs hp ht
    refine Reachable.slot ih ?_ hs hp ?_
    · rw [lookup_Collect_of_reachable h hm hra]
      exact hl
    · unfold tracked at ht ⊢
      rw [lookup_Collect_of_reachable h hm hrb]
      exact ht

/-- A collection right after a collection changes nothing. -/
theorem Collect_Collect (h : Heap) (hm : h.marks = []) : Collect (Collect h) = Collect h := by
  have hreg : (Collect (Collect h)).registry = (Collect h).registry := by
    rw [Collect_registry (Collect h)]
    apply List.filter_eq_self.2
    intro e he
    have hr : Reachable h e.1 := ((mem_Collect_registry h hm e.1 e.2).1 he).2
    have hr' : Reachable (Collect h) e.1 := Reachable_Collect h hm hr
    simpa using (mem_marks_Mark (Collect h) rfl e.1).2 hr'
  calc Collect (Collect h)
      = { registry := (Collect (Collect h)).registry, roots := (Collect h).roots,
          vars := (Collect h).vars, marks := [] } := rfl
    _ = { registry := (Collect h).registry, roots := (Collect h).roots,
          vars := (Collect h).vars, marks := [] } := by rw [hreg]
    _ = Collect h := rfl

/-! ## Lemmas about root registration -/

theorem StackRoots_enter_roots (h : Heap) (vars : List Addr) :
    (StackRoots_enter h vars).roots = vars.reverse ++ h.roots := by
  unfold StackRoots_enter
  induction vars generalizing h with
  | nil => rfl
  | cons v vs ih =>
    rw [List.foldl_cons, ih]
    simp [PushRoot]

theorem StackRoots_enter_frame (h : Heap) (vars : List Addr) :
    (StackRoots_enter h vars).registry = h.registry ∧
    (StackRoots_enter h vars).vars = h.vars ∧ (StackRoots_enter h vars).marks = h.marks := by
  unfold StackRoots_enter
  induction vars generalizing h with
  | nil => exact ⟨rfl, rfl, rfl⟩
  | cons v vs ih =>
    rw [List.foldl_cons]
    exact ih (PushRoot h v)

theorem StackRoots_exit_roots (n : Nat) (h : Heap) :
    (StackRoots_exit n h).roots = h.roots.drop n := by
  induction n generalizing h with
  | zero => rfl
  | succ n ih =>
    rw [StackRoots_exit, ih]
    cases hr : h.roots <;> simp [PopRoot, hr]

theorem StackRoots_exit_frame (n : Nat) (h : Heap) :
    (StackRoots_exit n h).registry = h.registry ∧
    (StackRoots_exit n h).vars = h.vars ∧ (StackRoots_exit n h).marks = h.marks := by
  induction n generalizing h with
  | zero => exact ⟨rfl, rfl, rfl⟩
  | succ n ih =>
    rw [StackRoots_exit]
    exact ih (PopRoot h)

theorem runOps_append (ops1 ops2 : List RootOp) (h : Heap) :
    runOps (ops1 ++ ops2) h = runOps ops2 (runOps ops1 h) := by
  induction ops1 generalizing h with
  | nil => rfl
  | cons op ops ih =>
    cases op <;> exact ih _

/-- A properly nested sequence leaves the Root Set as it found it. -/
theorem Nested_roots {ops : List RootOp} (hn : Nested ops) :
    ∀ h : Heap, (runOps ops h).roots = h.roots := by
  induction hn with
  | nil => intro h; rfl
  | collect _ ih =>
    intro h
    rw [runOps, ih, Collect_roots]
  | scope vars _ _ ihb ihr =>
    intro h
    rw [runOps, runOps_append, runOps, ihr, StackRoots_exit_roots, ihb, StackRoots_enter_roots]
    rw [← List.length_reverse vars, List.drop_left]

/-! ## Lemmas about `pop()` -/

theorem lookup_updateObj (reg : List (Addr × Obj)) (l : Addr) (f : Obj → Obj) (a : Addr) :
    (updateObj reg l f).lookup a = if a = l then (reg.lookup l).map f else reg.lookup a := by
  induction reg with
  | nil => simp [updateObj]
  | cons e reg ih =>
    obtain ⟨k, ob⟩ := e
    unfold updateObj at ih ⊢
    by_cases hk : k = l
    · subst hk
      by_cases ha : a = k
      · subst ha
        simp [List.lookup_cons]
      · have hb : (a == k) = false := by simpa using ha
        simp only [List.map_cons, if_true, List.lookup_cons, hb, ih, ha, if_false]
    · by_cases ha : a = k
      · subst ha
        simp [List.lookup_cons, hk]
      · have hb : (a == k) = false := by simpa using ha
        have hb2 : (l == k) = false := by simpa using fun e => hk e.symm
        simp only [List.map_cons, hk, if_false, List.lookup_cons, hb, hb2, ih]

/-- The elements of a list survive a collection called between two collections
(the statement shared by the claims about lists). -/
theorem listItems_Collect (h : Heap) (hm : h.marks = []) (v l : Addr) (items : List Addr)
    (hv : v ∈ h.roots) (hvl : h.vars.lookup v = some l) (hit : listItems h l = some items) :
    listItems (Collect h) l = some items ∧
      ∀ e ∈ items, (Collect h).registry.lookup e = h.registry.lookup e := by
  have hlt : tracked h l = true := by
    unfold listItems at hit
    cases hll : h.registry.lookup l with
    | none => simp [hll] at hit
    | some o => exact tracked_of_lookup hll
  have hl : Reachable h l := Reachable.root hv hvl hlt
  have hsame : ∀ a o, h.registry.lookup a = some o → Reachable h a →
      (Collect h).registry.lookup a = some o := by
    intro a o hlo hr
    rw [lookup_Collect_of_reachable h hm hr, hlo]
  obtain ⟨hres, len, slab, t1, m1, n1, t2, m2, n2, its, hll, hls, hitems⟩ :=
    listItems_congr h (Collect h) l items hit hsame hl
  refine ⟨hres, ?_⟩
  intro e he
  apply lookup_Collect_untracked h hm
  cases hle : h.registry.lookup e with
  | none => exact Or.inr rfl
  | some s =>
    left
    have hslab : Reachable h slab :=
      Reachable.slot hl hll rfl (by simp) (tracked_of_lookup hls)
    have hmem : e ∈ its := by
      rw [hitems] at he
      exact List.mem_of_mem_take he
    exact Reachable.slot hslab hls rfl hmem (tracked_of_lookup hle)

/-- The shape of a heap in which `l` is a list of references. -/
theorem listItems_shape {h : Heap} {l : Addr} {items : List Addr}
    (hit : listItems h l = some items) :
    ∃ len slab t1 m1 n1 t2 m2 n2 its,
      h.registry.lookup l = some ⟨⟨Tag.Scanned, t1, m1, n1⟩, [len, slab]⟩ ∧
      h.registry.lookup slab = some ⟨⟨Tag.Scanned, t2, m2, n2⟩, its⟩ ∧
      len ≤ its.length ∧ items = its.take len := by
  unfold listItems at hit
  split at hit
  · rename_i t1 m1 n1 len slab hll
    split at hit
    · rename_i t2 m2 n2 its hls
      split at hit
      · rename_i hlen
        simp only [Option.some.injEq] at hit
        exact ⟨len, slab, t1, m1, n1, t2, m2, n2, its, hll, hls, hlen, hit.symm⟩
      · simp at hit
    · simp at hit
  · simp at hit

/-- After `pop()` a list of two elements holds the first of them, and every
other address is looked up as before. -/
theorem list_pop_spec (h : Heap) (l e0 e1 : Addr)
    (hit : listItems h l = some [e0, e1])
    (hself : ∀ o, h.registry.lookup l = some o → l ∉ o.payload) :
    listItems (list_pop h l) l = some [e0] ∧
    (∀ a, a ≠ l → (list_pop h l).registry.lookup a = h.registry.lookup a) ∧
    (list_pop h l).roots = h.roots ∧ (list_pop h l).vars = h.vars ∧
    (list_pop h l).marks = h.marks := by
  obtain ⟨len, slab, t1, m1, n1, t2, m2, n2, its, hll, hls, hlen, hitems⟩ := listItems_shape hit
  have hlen2 : len = 2 := by
    have := congrArg List.length hitems
    rw [List.length_take, min_eq_left hlen] at this
    simpa using this.symm
  subst hlen2
  have hsl : slab ≠ l := by
    intro hc
    exact hself _ hll (by simp [hc])
  have hreg : (list_pop h l).registry =
      updateObj h.registry l (fun o => ⟨o.header, [2 - 1, o.payload.getD 1 0]⟩) := by
    unfold list_pop
    rw [hll]
    simp
  have hrest : (list_pop h l).roots = h.roots ∧ (list_pop h l).vars = h.vars ∧
      (list_pop h l).marks = h.marks := by
    unfold list_pop
    rw [hll]
    simp
  have hlk : ∀ a, (list_pop h l).registry.lookup a =
      if a = l then some ⟨⟨Tag.Scanned, t1, m1, n1⟩, [1, slab]⟩ else h.registry.lookup a := by
    intro a
    rw [hreg]
    simp only [lookup_updateObj, hll]
    by_cases ha : a = l <;> simp [ha]
  refine ⟨?_, ?_, ?_, ?_, ?_⟩
  · unfold listItems
    rw [hlk l, if_pos rfl]
    simp only
    rw [hlk slab, if_neg hsl, hls]
    simp only
    have h1 : 1 ≤ its.length := Nat.le_trans (by decide) hlen
    rw [if_pos h1]
    have : List.take 1 its = List.take 1 (List.take 2 its) := by
      rw [List.take_take]; rfl
    rw [this, ← hitems]
    rfl
  · intro a ha
    rw [hlk a, if_neg ha]
  · exact hrest.1
  · exact hrest.2.1
  · exact hrest.2.2

/-! ## The claims about repeated collection, root registration and `pop()` -/

/-- C11: `Collect` is idempotent: called twice in succession, with no allocation
and no root change in between, from a state between two collections, the
second call leaves the heap (registry, object contents, roots, cleared marks)
exactly as the first call left it and reclaims nothing further. -/
theorem Collect_idempotent (h : Heap) (hm : h.marks = []) :
    Collect (Collect h) = Collect h ∧
    (Collect (Collect h)).registry = (Collect h).registry ∧
    (Collect (Collect h)).marks = [] :=
  ⟨Collect_Collect h hm, congrArg Heap.registry (Collect_Collect h hm), rfl⟩

theorem Collect_idempotent_witness :
    stringTestHeap.marks = [] ∧
    (Collect (Collect stringTestHeap) = Collect stringTestHeap ∧
    (Collect (Collect stringTestHeap)).registry = (Collect stringTestHeap).registry ∧
    (Collect (Collect stringTestHeap)).marks = []) ∧
    (Collect stringTestHeap).registry = [(1000, strFoo)] :=
  ⟨by decide, Collect_idempotent stringTestHeap (by decide), by decide⟩

/-- C12: scoped root registration is LIFO and balanced: constructing a guard
over `k` variable addresses pushes exactly those addresses on top of the Root
Set (the last one on top) and changes nothing else; destroying it pops exactly
`k` entries; and whatever properly nested sequence of constructions,
destructions and collections runs inside the guard's scope, the Root Set after
the guard's destruction is the Root Set before its construction. -/
theorem StackRoots_balanced (h : Heap) (vars : List Addr) (body : List RootOp)
    (hb : Nested body) :
    (StackRoots_enter h vars).roots = vars.reverse ++ h.roots ∧
    (StackRoots_enter h vars).registry = h.registry ∧
    (∀ h2 : Heap, (StackRoots_exit vars.length h2).roots = h2.roots.drop vars.length) ∧
    (StackRoots_exit vars.length (StackRoots_enter h vars)).roots = h.roots ∧
    (runOps (RootOp.enter vars :: (body ++ [RootOp.exit vars.length])) h).roots = h.roots := by
  refine ⟨StackRoots_enter_roots h vars, (StackRoots_enter_frame h vars).1,
    fun h2 => StackRoots_exit_roots _ h2, ?_, ?_⟩
  · rw [StackRoots_exit_roots, StackRoots_enter_roots, ← List.length_reverse vars,
      List.drop_left]
  · exact Nested_roots (Nested.scope vars hb Nested.nil) h

theorem StackRoots_balanced_witness :
    Nested [RootOp.enter [50], RootOp.collect, RootOp.exit 1, RootOp.collect] ∧
    ((StackRoots_enter stringTestHeap [20, 30, 40]).roots =
        [20, 30, 40].reverse ++ stringTestHeap.roots ∧
    (StackRoots_enter stringTestHeap [20, 30, 40]).registry = stringTestHeap.registry ∧
    (∀ h2 : Heap, (StackRoots_exit [20, 30, 40].length h2).roots =
        h2.roots.drop [20, 30, 40].length) ∧
    (StackRoots_exit [20, 30, 40].length (StackRoots_enter stringTestHeap [20, 30, 40])).roots =
        stringTestHeap.roots ∧
    (runOps (RootOp.enter [20, 30, 40] ::
        ([RootOp.enter [50], RootOp.collect, RootOp.exit 1, RootOp.collect] ++
          [RootOp.exit [20, 30, 40].length])) stringTestHeap).roots = stringTestHeap.roots) :=
  ⟨Nested.scope [50] (Nested.collect Nested.nil) (Nested.collect Nested.nil),
    StackRoots_balanced stringTestHeap [20, 30, 40]
      [RootOp.enter [50], RootOp.collect, RootOp.exit 1, RootOp.collect]
      (Nested.scope [50] (Nested.collect Nested.nil) (Nested.collect Nested.nil))⟩

/-- C13 (P5, mutation then collect): for a list of two references held by a
registered variable, where the list object refers neither to itself nor has
itself as first element, `pop()` followed by `Collect` (called between two
collections) yields a list of length 1 whose element at index 0 has the same
address and the same content as before. -/
theorem pop_then_Collect (h : Heap) (hm : h.marks = []) (v l e0 e1 : Addr)
    (hv : v ∈ h.roots) (hvl : h.vars.lookup v = some l)
    (hit : listItems h l = some [e0, e1])
    (hself : ∀ o, h.registry.lookup l = some o → l ∉ o.payload) (he0 : e0 ≠ l) :
    listItems (list_pop h l) l = some [e0] ∧
    listItems (Collect (list_pop h l)) l = some [e0] ∧
    (Collect (list_pop h l)).registry.lookup e0 = h.registry.lookup e0 := by
  obtain ⟨hpop, hframe, hroots, hvars, hmarks⟩ := list_pop_spec h l e0 e1 hit hself
  obtain ⟨hc, hsame⟩ := listItems_Collect (list_pop h l) (by rw [hmarks, hm]) v l [e0]
    (by rw [hroots]; exact hv) (by rw [hvars]; exact hvl) hpop
  refine ⟨hpop, hc, ?_⟩
  rw [hsame e0 (by simp), hframe e0 he0]

theorem pop_then_Collect_witness :
    listTestHeap.marks = [] ∧ 30 ∈ listTestHeap.roots ∧
    listTestHeap.vars.lookup 30 = some 3000 ∧
    listItems listTestHeap 3000 = some [1000, 2000] ∧
    (∀ o, listTestHeap.registry.lookup 3000 = some o → 3000 ∉ o.payload) ∧
    (1000 : Addr) ≠ 3000 ∧
    (listItems (list_pop listTestHeap 3000) 3000 = some [1000] ∧
    listItems (Collect (list_pop listTestHeap 3000)) 3000 = some [1000] ∧
    (Collect (list_pop listTestHeap 3000)).registry.lookup 1000 =
      listTestHeap.registry.lookup 1000) :=
  have hself : ∀ o, listTestHeap.registry.lookup 3000 = some o → 3000 ∉ o.payload := by
    intro o ho
    have e : listTestHeap.registry.lookup 3000 = some ⟨⟨Tag.Scanned, 2, 0, 24⟩, [2, 4000]⟩ := by
      decide
    rw [e] at ho
    cases ho
    decide
  ⟨by decide, by decide, by decide, by decide, hself, by decide,
    pop_then_Collect listTestHeap (by decide) 30 3000 1000 2000 (by decide) (by decide)
      (by decide) hself (by decide)⟩

/-! ## Lemmas about the lengths of matches -/

theorem foldl_max_spec : ∀ (ns : List Nat) (n : Nat),
    ns.foldl max n ∈ n :: ns ∧ ∀ m ∈ n :: ns, m ≤ ns.foldl max n := by
  intro ns
  induction ns with
  | nil => intro n; simp
  | cons a ns ih =>
    intro n
    obtain ⟨h1, h2⟩ := ih (max n a)
    rw [List.foldl_cons]
    constructor
    · rcases List.mem_cons.1 h1 with h | h
      · rw [h]
        rcases Nat.le_total n a with hle | hle
        · rw [max_eq_right hle]; simp
        · rw [max_eq_left hle]; simp
      · exact List.mem_cons_of_mem _ (List.mem_cons_of_mem _ h)
    · intro m hm
      have hmax := h2 (max n a) (List.mem_cons_self _ _)
      rcases List.mem_cons.1 hm with h | h
      · rw [h]; exact le_trans (le_max_left n a) hmax
      · rcases List.mem_cons.1 h with h | h
        · rw [h]; exact le_trans (le_max_right n a) hmax
        · exact h2 m (List.mem_cons_of_mem _ h)

theorem maxLen_some {l : List Nat} {k : Nat} (h : maxLen l = some k) :
    k ∈ l ∧ ∀ n ∈ l, n ≤ k := by
  cases l with
  | nil => simp [maxLen] at h
  | cons n ns =>
    simp only [maxLen, Option.some.injEq] at h
    rw [← h]
    exact foldl_max_spec ns n

theorem maxLen_of_mem {l : List Nat} {n : Nat} (h : n ∈ l) :
    ∃ k, maxLen l = some k ∧ n ≤ k := by
  cases l with
  | nil => simp at h
  | cons a ns => exact ⟨_, rfl, (foldl_max_spec ns a).2 n h⟩

theorem maxLen_none {l : List Nat} (h : maxLen l = none) : l = [] := by
  cases l with
  | nil => rfl
  | cons a ns => simp [maxLen] at h

/-! ## Lemmas about `strlen` -/

theorem strlen_cons_zero (rest : List Nat) : strlen (0 :: rest) = 0 := by
  simp [strlen]

theorem strlen_cons_ne {c : Nat} (hc : c ≠ 0) (rest : List Nat) :
    strlen (c :: rest) = strlen rest + 1 := by
  simp [strlen, List.takeWhile_cons, hc]

theorem strlen_le_length (buf : List Nat) : strlen buf ≤ buf.length := by
  induction buf with
  | nil => simp [strlen]
  | cons c rest ih =>
    by_cases hc : c = 0
    · subst hc; rw [strlen_cons_zero]; exact Nat.zero_le _
    · rw [strlen_cons_ne hc, List.length_cons]; omega

theorem strlen_drop : ∀ (n : Nat) (buf : List Nat), n ≤ strlen buf →
    strlen (buf.drop n) = strlen buf - n := by
  intro n
  induction n with
  | zero => intro buf _; simp
  | succ n ih =>
    intro buf h
    cases buf with
    | nil => simp [strlen] at h
    | cons c rest =>
      by_cases hc : c = 0
      · subst hc; rw [strlen_cons_zero] at h; omega
      · rw [strlen_cons_ne hc] at h ⊢
        rw [List.drop_succ_cons, ih rest (by omega)]
        omega

theorem strlen_append_zero (line rest : List Nat) : strlen (line ++ 0 :: rest) = strlen line := by
  induction line with
  | nil => simp [strlen]
  | cons c line ih =>
    by_cases hc : c = 0
    · subst hc; simp [strlen_cons_zero]
    · rw [List.cons_append, strlen_cons_ne hc, strlen_cons_ne hc, ih]

theorem strlen_eq_length {line : List Nat} (h : ∀ c ∈ line, c ≠ 0) : strlen line = line.length := by
  induction line with
  | nil => simp [strlen]
  | cons c line ih =>
    rw [strlen_cons_ne (h c (List.mem_cons_self _ _)), List.length_cons,
      ih (fun x hx => h x (List.mem_cons_of_mem _ hx))]

theorem le_strlen_of_take : ∀ (k : Nat) (inp : List Nat), (inp.take k).length = k →
    (∀ c ∈ inp.take k, c ≠ 0) → k ≤ strlen inp := by
  intro k
  induction k with
  | zero => intro inp _ _; exact Nat.zero_le _
  | succ k ih =>
    intro inp hlen hnz
    cases inp with
    | nil => simp at hlen
    | cons c rest =>
      rw [List.take_succ_cons] at hlen hnz
      have hc : c ≠ 0 := hnz c (List.mem_cons_self _ _)
      rw [strlen_cons_ne hc]
      have := ih rest (by simpa using hlen) (fun x hx => hnz x (List.mem_cons_of_mem _ hx))
      omega

/-! ## Matches of NUL-free expressions stay inside the C string -/

theorem starEnds_le (step : List Nat → List Nat)
    (hstep : ∀ inp n, n ∈ step inp → n ≤ strlen inp) :
    ∀ (fuel : Nat) (inp : List Nat) (n : Nat), n ∈ starEnds step fuel inp → n ≤ strlen inp := by
  intro fuel
  induction fuel with
  | zero =>
    intro inp n hn
    simp only [starEnds, List.mem_singleton] at hn
    omega
  | succ fuel ih =>
    intro inp n hn
    simp only [starEnds, List.mem_cons, List.mem_flatMap, List.mem_filter, List.mem_map,
      decide_eq_true_eq] at hn
    rcases hn with h0 | ⟨a, ⟨ha, _⟩, m, hm, rfl⟩
    · omega
    · have h1 := hstep inp a ha
      have h2 := ih (inp.drop a) m hm
      rw [strlen_drop a inp h1] at h2
      omega

theorem ends_le_strlen (r : Re) (hr : r.nulFree = true) :
    ∀ (inp : List Nat) (n : Nat), n ∈ r.ends inp → n ≤ strlen inp := by
  induction r with
  | cls p =>
    intro inp n hn
    cases inp with
    | nil => simp [Re.ends] at hn
    | cons c rest =>
      simp only [Re.ends] at hn
      by_cases hp : p c = true
      · rw [if_pos hp] at hn
        have hc : c ≠ 0 := by
          intro hc
          subst hc
          simp [Re.nulFree, hp] at hr
        rw [strlen_cons_ne hc]
        simp only [List.mem_singleton] at hn
        omega
      · rw [if_neg hp] at hn
        simp at hn
  | lit s =>
    intro inp n hn
    simp only [Re.ends] at hn
    by_cases hs : inp.take s.length = s
    · rw [if_pos hs] at hn
      simp only [List.mem_singleton] at hn
      subst hn
      apply le_strlen_of_take
      · rw [hs]
      · rw [hs]
        intro c hc
        simp only [Re.nulFree, List.all_eq_true, bne_iff_ne] at hr
        exact hr c hc
    · rw [if_neg hs] at hn
      simp at hn
  | seq r s ihr ihs =>
    intro inp n hn
    simp only [Re.nulFree, Bool.and_eq_true] at hr
    simp only [Re.ends, List.mem_flatMap, List.mem_map] at hn
    obtain ⟨a, ha, m, hm, rfl⟩ := hn
    have h1 := ihr hr.1 inp a ha
    have h2 := ihs hr.2 (inp.drop a) m hm
    rw [strlen_drop a inp h1] at h2
    omega
  | alt r s ihr ihs =>
    intro inp n hn
    simp only [Re.nulFree, Bool.and_eq_true] at hr
    simp only [Re.ends, List.mem_append] at hn
    rcases hn with h | h
    · exact ihr hr.1 inp n h
    · exact ihs hr.2 inp n h
  | star r ih =>
    intro inp n hn
    simp only [Re.nulFree] at hr
    simp only [Re.ends] at hn
    exact starEnds_le r.ends (ih hr) _ inp n hn
  | plus r ih =>
    intro inp n hn
    simp only [Re.nulFree] at hr
    simp only [Re.ends, List.mem_flatMap, List.mem_map] at hn
    obtain ⟨a, ha, m, hm, rfl⟩ := hn
    have h1 := ih hr inp a ha
    have h2 := starEnds_le r.ends (ih hr) _ (inp.drop a) m hm
    rw [strlen_drop a inp h1] at h2
    omega
  | opt r ih =>
    intro inp n hn
    simp only [Re.nulFree] at hr
    simp only [Re.ends, List.mem_cons] at hn
    rcases hn with h | h
    · omega
    · exact ih hr inp n h

theorem ends_isCls (r : Re) (hr : r.isCls = true) (c : Nat) (rest : List Nat) (n : Nat)
    (hn : n ∈ r.ends (c :: rest)) : n = 1 := by
  cases r with
  | cls p =>
    simp only [Re.ends] at hn
    by_cases hp : p c = true
    · rw [if_pos hp] at hn; simpa using hn
    · rw [if_neg hp] at hn; simp at hn
  | lit s => simp [Re.isCls] at hr
  | seq r s => simp [Re.isCls] at hr
  | alt r s => simp [Re.isCls] at hr
  | star r => simp [Re.isCls] at hr
  | plus r => simp [Re.isCls] at hr
  | opt r => simp [Re.isCls] at hr

/-! ## The rule a block selects -/

theorem pick_none {T : Type} {rules : List (Rule T)} {inp : List Nat}
    (h : pick rules inp = none) : ∀ r ∈ rules, r.re.longest inp = none := by
  induction rules with
  | nil => intro r hr; simp at hr
  | cons r0 rs ih =>
    intro r hr
    unfold pick at h
    cases h0 : r0.re.longest inp with
    | none =>
      rw [h0] at h
      simp only at h
      rcases List.mem_cons.1 hr with rfl | hmem
      · exact h0
      · exact ih h r hmem
    | some n =>
      rw [h0] at h
      cases h1 : pick rs inp with
      | none => rw [h1] at h; simp at h
      | some b =>
        obtain ⟨m, a⟩ := b
        rw [h1] at h
        simp only at h
        split at h <;> simp at h

theorem pick_some {T : Type} {rules : List (Rule T)} {inp : List Nat} {n : Nat} {a : Action T}
    (h : pick rules inp = some (n, a)) :
    (∃ r ∈ rules, r.re.longest inp = some n ∧ r.act = a) ∧
    ∀ r ∈ rules, ∀ m, r.re.longest inp = some m → m ≤ n := by
  induction rules generalizing n a with
  | nil => simp [pick] at h
  | cons r0 rs ih =>
    unfold pick at h
    cases h0 : r0.re.longest inp with
    | none =>
      rw [h0] at h
      simp only at h
      obtain ⟨⟨r, hr, hl, ha⟩, hmax⟩ := ih h
      refine ⟨⟨r, List.mem_cons_of_mem _ hr, hl, ha⟩, ?_⟩
      intro r' hr' m hm
      rcases List.mem_cons.1 hr' with rfl | hmem
      · rw [h0] at hm; simp at hm
      · exact hmax r' hmem m hm
    | some n0 =>
      rw [h0] at h
      cases h1 : pick rs inp with
      | none =>
        rw [h1] at h
        simp only [Option.some.injEq, Prod.mk.injEq] at h
        obtain ⟨rfl, rfl⟩ := h
        refine ⟨⟨r0, List.mem_cons_self _ _, h0, rfl⟩, ?_⟩
        intro r' hr' m hm
        rcases List.mem_cons.1 hr' with rfl | hmem
        · rw [h0] at hm; simp only [Option.some.injEq] at hm; omega
        · rw [pick_none h1 r' hmem] at hm; simp at hm
      | some b =>
        obtain ⟨m1, a1⟩ := b
        rw [h1] at h
        simp only at h
        obtain ⟨⟨r, hr, hl, ha⟩, hmax⟩ := ih h1
        by_cases hlt : n0 < m1
        · rw [if_pos hlt] at h
          simp only [Option.some.injEq, Prod.mk.injEq] at h
          obtain ⟨rfl, rfl⟩ := h
          refine ⟨⟨r, List.mem_cons_of_mem _ hr, hl, ha⟩, ?_⟩
          intro r' hr' m hm
          rcases List.mem_cons.1 hr' with rfl | hmem
          · rw [h0] at hm; simp only [Option.some.injEq] at hm; omega
          · exact hmax r' hmem m hm
        · rw [if_neg hlt] at h
          simp only [Option.some.injEq, Prod.mk.injEq] at h
          obtain ⟨rfl, rfl⟩ := h
          refine ⟨⟨r0, List.mem_cons_self _ _, h0, rfl⟩, ?_⟩
          intro r' hr' m hm
          rcases List.mem_cons.1 hr' with rfl | hmem
          · rw [h0] at hm; simp only [Option.some.injEq] at hm; omega
          · have := hmax r' hmem m hm
            omega

/-! ## One call of a block -/

theorem longest_nul_zero (rest : List Nat) : nul.longest (0 :: rest) = some 1 := by
  simp [nul, Re.longest, Re.ends, maxLen]

theorem longest_nul_ne {c : Nat} (hc : c ≠ 0) (rest : List Nat) :
    nul.longest (c :: rest) = none := by
  simp [nul, Re.longest, Re.ends, maxLen, hc]

theorem longest_anyUnit (c : Nat) (rest : List Nat) : anyUnit.longest (c :: rest) = some 1 := by
  simp [anyUnit, Re.longest, Re.ends, maxLen]

/-- At a NUL byte a rule of a block matches one byte at most. -/
theorem longest_at_nul (r : Re) (hr : (r.nulFree || r.isCls) = true) (rest : List Nat)
    (m : Nat) (hm : r.longest (0 :: rest) = some m) : m ≤ 1 := by
  have hmem : m ∈ r.ends (0 :: rest) := (maxLen_some hm).1
  rcases Bool.or_eq_true_iff.1 hr with hnf | hcls
  · have hle := ends_le_strlen r hnf (0 :: rest) m hmem
    rw [strlen_cons_zero] at hle
    omega
  · exact le_of_eq (ends_isCls r hcls 0 rest m hmem)

/-- Elsewhere what a rule of a block matches lies before the first NUL. -/
theorem longest_at_byte (r : Re) (hr : (r.nulFree || r.isCls) = true) {c : Nat} (hc : c ≠ 0)
    (rest : List Nat) (m : Nat) (hm : r.longest (c :: rest) = some m) :
    m ≤ strlen (c :: rest) := by
  have hmem : m ∈ r.ends (c :: rest) := (maxLen_some hm).1
  rcases Bool.or_eq_true_iff.1 hr with hnf | hcls
  · exact ends_le_strlen r hnf (c :: rest) m hmem
  · rw [strlen_cons_ne hc, ends_isCls r hcls c rest m hmem]
    omega

/-- At a NUL byte a block returns true. -/
theorem pick_at_nul {T : Type} {rules : List (Rule T)} (hg : GoodBlock rules)
    (rest : List Nat) : pick rules (0 :: rest) = some (1, Action.ret_true) := by
  obtain ⟨others, rfl, _, hok, _⟩ := hg
  unfold pick
  simp only [longest_nul_zero]
  cases h1 : pick others (0 :: rest) with
  | none => rfl
  | some b =>
    obtain ⟨m, a⟩ := b
    obtain ⟨⟨r, hr, hl, _⟩, _⟩ := pick_some h1
    have hm : m ≤ 1 := longest_at_nul r.re (hok r hr) rest m hl
    simp only
    rw [if_neg (by omega)]

/-- At any other byte a block yields a token of at least one byte that ends
before the first NUL. -/
theorem pick_at_byte {T : Type} {rules : List (Rule T)} (hg : GoodBlock rules) {c : Nat}
    (hc : c ≠ 0) (rest : List Nat) :
    ∃ n a, pick rules (c :: rest) = some (n, a) ∧ a ≠ Action.ret_true ∧ 1 ≤ n ∧
      n ≤ strlen (c :: rest) := by
  obtain ⟨others, rfl, hact, hok, ⟨d, hd, hdre⟩⟩ := hg
  have hstep : pick (⟨nul, Action.ret_true⟩ :: others) (c :: rest) = pick others (c :: rest) := by
    conv_lhs => unfold pick
    simp only [longest_nul_ne hc]
  rw [hstep]
  have hdl : d.re.longest (c :: rest) = some 1 := by rw [hdre]; exact longest_anyUnit c rest
  cases h1 : pick others (c :: rest) with
  | none =>
    have := pick_none h1 d hd
    rw [hdl] at this
    simp at this
  | some b =>
    obtain ⟨n, a⟩ := b
    obtain ⟨⟨r, hr, hl, ha⟩, hmax⟩ := pick_some h1
    refine ⟨n, a, rfl, ?_, hmax d hd 1 hdl, longest_at_byte r.re (hok r hr) hc rest n hl⟩
    rw [← ha]
    exact hact r hr

/-- The input of a lexer that has not passed the first NUL of its line. -/
theorem input_cases {T : Type} (lexer : Lexer T) (hp : lexer.p_current ≤ strlen lexer.line_) :
    ∃ c rest, lexer.input = c :: rest ∧
      strlen (c :: rest) = strlen lexer.line_ - lexer.p_current ∧
      (c = 0 → lexer.p_current = strlen lexer.line_) ∧
      (c ≠ 0 → lexer.p_current < strlen lexer.line_) := by
  have hbuf : strlen (lexer.line_ ++ [0]) = strlen lexer.line_ := strlen_append_zero _ _
  have hs : strlen lexer.input = strlen lexer.line_ - lexer.p_current := by
    unfold Lexer.input
    rw [strlen_drop _ _ (by rw [hbuf]; exact hp), hbuf]
  have hlen : lexer.p_current < (lexer.line_ ++ [0]).length := by
    have := strlen_le_length lexer.line_
    simp only [List.length_append, List.length_singleton]
    omega
  cases hi : lexer.input with
  | nil =>
    unfold Lexer.input at hi
    have := congrArg List.length hi
    simp only [List.length_drop, List.length_nil] at this
    omega
  | cons c rest =>
    rw [hi] at hs
    refine ⟨c, rest, rfl, hs, ?_, ?_⟩
    · intro hc
      subst hc
      rw [strlen_cons_zero] at hs
      omega
    · intro hc
      rw [strlen_cons_ne hc] at hs
      omega

/-- A call of a block by a lexer that has not passed the first NUL of its
line: at the NUL it returns true and changes nothing; before it, it returns
false, advances by at least one byte without passing the NUL, keeps the line
and sets `end_col` to the new offset converted to `int`. -/
theorem runBlock_spec {T : Type} {rules : List (Rule T)} (hg : GoodBlock rules)
    (lexer : Lexer T) (tok : Token) (hp : lexer.p_current ≤ strlen lexer.line_) :
    (lexer.p_current = strlen lexer.line_ → runBlock rules lexer tok = ⟨true, lexer, tok⟩) ∧
    (lexer.p_current < strlen lexer.line_ →
      (runBlock rules lexer tok).eol = false ∧
      lexer.p_current + 1 ≤ (runBlock rules lexer tok).lexer.p_current ∧
      (runBlock rules lexer tok).lexer.p_current ≤ strlen lexer.line_ ∧
      (runBlock rules lexer tok).lexer.line_ = lexer.line_ ∧
      (runBlock rules lexer tok).tok.end_col =
        wrapInt32 (((runBlock rules lexer tok).lexer.p_current : Nat) : Int)) := by
  obtain ⟨c, rest, hi, hs, h0, hne⟩ := input_cases lexer hp
  constructor
  · intro heq
    have hc : c = 0 := by
      by_contra hc
      have := hne hc
      omega
    subst hc
    unfold runBlock
    rw [hi, pick_at_nul hg rest]
  · intro hlt
    have hc : c ≠ 0 := by
      intro hc
      have := h0 hc
      omega
    obtain ⟨n, a, hpick, ha, h1, hn⟩ := pick_at_byte hg hc rest
    rw [hs] at hn
    unfold runBlock
    rw [hi, hpick]
    cases a with
    | ret_true => exact absurd rfl ha
    | TOK k => exact ⟨rfl, by simp only; omega, by simp only; omega, rfl, rfl⟩
    | TOK_MODE k m => exact ⟨rfl, by simp only; omega, by simp only; omega, rfl, rfl⟩

/-- Whenever a block returns true it leaves the lexer and the token as they are. -/
theorem runBlock_eol {T : Type} (rules : List (Rule T)) (lexer : Lexer T) (tok : Token)
    (h : (runBlock rules lexer tok).eol = true) :
    runBlock rules lexer tok = ⟨true, lexer, tok⟩ := by
  unfold runBlock at h ⊢
  cases hpick : pick rules lexer.input with
  | none => rfl
  | some b =>
    obtain ⟨n, a⟩ := b
    rw [hpick] at h
    cases a with
    | ret_true => rfl
    | TOK k => simp at h
    | TOK_MODE k m => simp at h

theorem goodBlock_py_Outer : GoodBlock py_Outer_rules :=
  ⟨_, rfl, by simp, by simp [Re.nulFree, Re.isCls, identifier, pound_comment, triple_sq,
      triple_dq, sq_middle, dq_middle, whitespace, otherChar, anyUnit, chr, not_nul, identStart,
      identCont],
    ⟨⟨anyUnit, Action.TOK Id.Unknown⟩, by simp, rfl⟩⟩

theorem goodBlock_py_MultiSQ : GoodBlock py_MultiSQ_rules :=
  ⟨_, rfl, by simp, by simp [Re.nulFree, Re.isCls, triple_sq, anyUnit],
    ⟨⟨anyUnit, Action.TOK Id.TripleSQ⟩, by simp, rfl⟩⟩

theorem goodBlock_py_MultiDQ : GoodBlock py_MultiDQ_rules :=
  ⟨_, rfl, by simp, by simp [Re.nulFree, Re.isCls, triple_dq, anyUnit, chr],
    ⟨⟨anyUnit, Action.TOK Id.TripleDQ⟩, by simp, rfl⟩⟩

theorem Match_py_spec (lexer : Lexer py_mode_e) (tok : Token)
    (hp : lexer.p_current ≤ strlen lexer.line_) :
    (lexer.p_current = strlen lexer.line_ → Match_py lexer tok = ⟨true, lexer, tok⟩) ∧
    (lexer.p_current < strlen lexer.line_ →
      (Match_py lexer tok).eol = false ∧
      lexer.p_current + 1 ≤ (Match_py lexer tok).lexer.p_current ∧
      (Match_py lexer tok).lexer.p_current ≤ strlen lexer.line_ ∧
      (Match_py lexer tok).lexer.line_ = lexer.line_ ∧
      (Match_py lexer tok).tok.end_col =
        wrapInt32 (((Match_py lexer tok).lexer.p_current : Nat) : Int)) := by
  unfold Match_py
  cases lexer.line_mode
  · exact runBlock_spec goodBlock_py_Outer lexer tok hp
  · exact runBlock_spec goodBlock_py_MultiSQ lexer tok hp
  · exact runBlock_spec goodBlock_py_MultiDQ lexer tok hp

theorem Match_py_eol (lexer : Lexer py_mode_e) (tok : Token)
    (h : (Match_py lexer tok).eol = true) : Match_py lexer tok = ⟨true, lexer, tok⟩ := by
  unfold Match_py at h ⊢
  cases hm : lexer.line_mode <;> rw [hm] at h <;> exact runBlock_eol _ lexer tok h

/-- A call that returns false has not started at the first NUL. -/
theorem Match_py_lt (lexer : Lexer py_mode_e) (tok : Token)
    (hp : lexer.p_current ≤ strlen lexer.line_) (h : (Match_py lexer tok).eol = false) :
    lexer.p_current < strlen lexer.line_ := by
  by_contra hc
  have heq : lexer.p_current = strlen lexer.line_ := by omega
  rw [(Match_py_spec lexer tok hp).1 heq] at h
  simp at h

theorem wrapInt32_natCast {n : Nat} (h : n < 2 ^ 31) : wrapInt32 (n : Int) = (n : Int) := by
  apply wrapInt32_id <;> omega

/-! ## The loop over the tokens of a line -/

/-- The output, the significance flag and the lexer at the end of the loop are
those of the tokens of the line. -/
theorem tokenLoop_done {T : Type} [Matcher T] (flag : Flags) (line : List Nat) (line_num : Int) :
    ∀ (fuel : Nat) (st st2 : LineState T),
      tokenLoop flag line line_num fuel st = Outcome.done st2 →
      st2.out = st.out ++ (lineTokens fuel st.lexer st.start_col).flatMap
        (fun c => Printer_Print flag line line_num c.1 c.2) ∧
      st2.is_significant = (st.is_significant ||
        (lineTokens fuel st.lexer st.start_col).any (fun c => significant c.2.kind)) ∧
      st2.lexer = lineEnd fuel st.lexer := by
  intro fuel
  induction fuel with
  | zero => intro st st2 h; simp [tokenLoop] at h
  | succ fuel ih =>
    intro st st2 h
    unfold tokenLoop at h
    unfold lineTokens lineEnd
    cases hm : Matcher.Match st.lexer ⟨Id.Unknown, 0⟩ with
    | none => rw [hm] at h; simp at h
    | some r =>
      rw [hm] at h
      simp only at h ⊢
      by_cases he : r.eol = true
      · rw [if_pos he] at h ⊢
        simp only [Outcome.done.injEq] at h
        subst h
        simp [he]
      · rw [if_neg he] at h ⊢
        obtain ⟨h1, h2, h3⟩ := ih _ st2 h
        simp only [he] at h1 h2 h3 ⊢
        refine ⟨?_, ?_, h3⟩
        · rw [h1]; simp [List.append_assoc]
        · rw [h2]; simp [Bool.or_assoc]

/-- In Python mode the loop over the tokens of a line ends, with the lexer at
the first NUL of the line. -/
theorem tokenLoop_py_done (flag : Flags) (line : List Nat) (line_num : Int) :
    ∀ (fuel : Nat) (st : LineState py_mode_e),
      st.lexer.p_current ≤ strlen st.lexer.line_ →
      strlen st.lexer.line_ - st.lexer.p_current + 1 ≤ fuel →
      ∃ st2, tokenLoop flag line line_num fuel st = Outcome.done st2 ∧
        st2.lexer.line_ = st.lexer.line_ ∧ st2.lexer.p_current = strlen st.lexer.line_ := by
  intro fuel
  induction fuel with
  | zero => intro st _ hf; omega
  | succ fuel ih =>
    intro st hp hf
    unfold tokenLoop
    simp only [Matcher.Match]
    by_cases he : (Match_py st.lexer ⟨Id.Unknown, 0⟩).eol = true
    · rw [if_pos he]
      have hr := Match_py_eol st.lexer _ he
      refine ⟨_, rfl, ?_, ?_⟩
      · simp only [hr]
      · simp only [hr]
        by_contra hc
        have hlt : st.lexer.p_current < strlen st.lexer.line_ := by omega
        have := ((Match_py_spec st.lexer ⟨Id.Unknown, 0⟩ hp).2 hlt).1
        rw [this] at he
        simp at he
    · rw [if_neg he]
      have he' : (Match_py st.lexer ⟨Id.Unknown, 0⟩).eol = false := by simpa using he
      have hlt := Match_py_lt st.lexer _ hp he'
      obtain ⟨_, h1, h2, h3, _⟩ := (Match_py_spec st.lexer ⟨Id.Unknown, 0⟩ hp).2 hlt
      obtain ⟨st2, hd, hl, hpc⟩ := ih
        { lexer := (Match_py st.lexer ⟨Id.Unknown, 0⟩).lexer,
          start_col := (Match_py st.lexer ⟨Id.Unknown, 0⟩).tok.end_col,
          is_significant := st.is_significant ||
            significant (Match_py st.lexer ⟨Id.Unknown, 0⟩).tok.kind,
          out := st.out ++ Printer_Print flag line line_num st.start_col
            (Match_py st.lexer ⟨Id.Unknown, 0⟩).tok }
        (by simp only [h3]; exact h2) (by simp only [h3]; omega)
      refine ⟨st2, hd, ?_, ?_⟩
      · rw [hl]; exact h3
      · rw [hpc]; simp only [h3]

/-- In Python mode a line gives at most as many tokens as it has bytes before
its first NUL. -/
theorem lineTokens_py_length :
    ∀ (fuel : Nat) (lexer : Lexer py_mode_e) (s : Int),
      lexer.p_current ≤ strlen lexer.line_ →
      (lineTokens fuel lexer s).length ≤ strlen lexer.line_ - lexer.p_current := by
  intro fuel
  induction fuel with
  | zero => intro lexer s _; simp [lineTokens]
  | succ fuel ih =>
    intro lexer s hp
    unfold lineTokens
    simp only [Matcher.Match]
    by_cases he : (Match_py lexer ⟨Id.Unknown, 0⟩).eol = true
    · rw [if_pos he]; simp
    · rw [if_neg he]
      have he' : (Match_py lexer ⟨Id.Unknown, 0⟩).eol = false := by simpa using he
      have hlt := Match_py_lt lexer _ hp he'
      obtain ⟨_, h1, h2, h3, _⟩ := (Match_py_spec lexer ⟨Id.Unknown, 0⟩ hp).2 hlt
      have := ih (Match_py lexer ⟨Id.Unknown, 0⟩).lexer (Match_py lexer ⟨Id.Unknown, 0⟩).tok.end_col
        (by rw [h3]; exact h2)
      rw [h3] at this
      simp only [List.length_cons]
      omega

theorem tsvCols_append (a b : List Out) : tsvCols (a ++ b) = tsvCols a ++ tsvCols b := by
  induction a with
  | nil => rfl
  | cons x a ih =>
    cases x <;> simp [tsvCols, ih]

theorem tsvCols_tokens (line : List Nat) (line_num : Int) (toks : List (Int × Token)) :
    tsvCols (toks.flatMap (fun c => TsvPrinter_Print line line_num c.1 c.2)) =
      toks.map (fun c => (c.1, c.2.end_col)) := by
  induction toks with
  | nil => rfl
  | cons c toks ih =>
    simp only [List.flatMap_cons, tsvCols_append, ih, List.map_cons]
    rfl

theorem wrapInt32_add (a c : Int) : wrapInt32 (wrapInt32 a + c) = wrapInt32 (a + c) := by
  unfold wrapInt32
  omega

theorem sigCount_le {T : Type} [Matcher T] : ∀ (lines : List (List Nat)) (lexer : Lexer T),
    sigCount lines lexer ≤ lines.length := by
  intro lines
  induction lines with
  | nil => intro lexer; simp [sigCount]
  | cons line rest ih =>
    intro lexer
    have := ih (lineEnd (line.length + 1) (lexer.SetLine line))
    simp only [sigCount, List.length_cons]
    split <;> omega

/-- The two numbers `GoodEnough` logs are, as `int`s, the number of lines and
the number of lines with a significant token. -/
theorem lineLoop_log {T : Type} [Matcher T] (flag : Flags) :
    ∀ (lines : List (List Nat)) (lexer : Lexer T) (a b : Int) (out : List Out) (run : Run),
      lineLoop flag lines lexer (wrapInt32 a) (wrapInt32 b) out = Outcome.done run →
      run.log.lines = wrapInt32 (a + (lines.length : Int) - 1) ∧
      run.log.significant = wrapInt32 (b + (sigCount lines lexer : Int)) := by
  intro lines
  induction lines with
  | nil =>
    intro lexer a b out run h
    simp only [lineLoop, Outcome.done.injEq] at h
    subst h
    simp only [List.length_nil, sigCount, Nat.cast_zero, add_zero]
    exact ⟨by unfold wrapInt32; omega, trivial⟩
  | cons line rest ih =>
    intro lexer a b out run h
    unfold lineLoop at h
    cases ht : tokenLoop flag line (wrapInt32 a) (line.length + 1)
        { lexer := lexer.SetLine line, start_col := 0, is_significant := false, out := out } with
    | aborted => rw [ht] at h; simp at h
    | unfinished => rw [ht] at h; simp at h
    | done st =>
      rw [ht] at h
      simp only at h
      obtain ⟨_, hsig, hlex⟩ := tokenLoop_done flag line (wrapInt32 a) _ _ st ht
      simp only [Bool.false_or] at hsig
      rw [wrapInt32_add, wrapInt32_add] at h
      obtain ⟨h1, h2⟩ := ih _ _ _ _ run h
      rw [h1, h2, hlex, hsig]
      simp only [sigCount, List.length_cons, Nat.cast_add, Nat.cast_one]
      constructor
      · congr 1; omega
      · congr 1
        split <;> simp [add_assoc]

/-- In Python mode `GoodEnough` comes to its end on every input. -/
theorem lineLoop_py_done (flag : Flags) :
    ∀ (lines : List (List Nat)) (lexer : Lexer py_mode_e) (ln ns : Int) (out : List Out),
      ∃ run, lineLoop flag lines lexer ln ns out = Outcome.done run := by
  intro lines
  induction lines with
  | nil => intro lexer ln ns out; exact ⟨_, rfl⟩
  | cons line rest ih =>
    intro lexer ln ns out
    obtain ⟨st, hst, _, _⟩ := tokenLoop_py_done flag line ln (line.length + 1)
      { lexer := lexer.SetLine line, start_col := 0, is_significant := false, out := out }
      (Nat.zero_le _)
      (by have := strlen_le_length line; simp only [Lexer.SetLine]; omega)
    unfold lineLoop
    rw [hst]
    exact ih _ _ _ _

theorem starEnds_replicate (p : Nat → Bool) (c : Nat) (hc : p c = true) (rest : List Nat) :
    ∀ (n fuel : Nat), n ≤ fuel →
      n ∈ starEnds (Re.cls p).ends fuel (List.replicate n c ++ rest) := by
  intro n
  induction n with
  | zero =>
    intro fuel _
    cases fuel <;> simp [starEnds]
  | succ n ih =>
    intro fuel hf
    obtain ⟨f, rfl⟩ : ∃ f, fuel = f + 1 := ⟨fuel - 1, by omega⟩
    have h := ih f (by omega)
    simp only [starEnds, List.replicate_succ, List.cons_append, Re.ends, hc, if_true,
      List.mem_cons, List.mem_flatMap, List.mem_filter, List.mem_map, List.mem_singleton,
      decide_eq_true_eq]
    right
    exact ⟨1, ⟨by simp, Nat.one_pos⟩, n, h, by omega⟩

theorem identifier_replicate (n : Nat) (rest : List Nat) :
    ∃ k, identifier.longest (List.replicate (n + 1) 97 ++ rest) = some k ∧ n + 1 ≤ k := by
  apply maxLen_of_mem
  have h := starEnds_replicate identCont 97 (by decide) rest n (List.replicate n 97 ++ rest).length
    (by simp)
  simp only [identifier, Re.ends, List.replicate_succ, List.cons_append, List.mem_flatMap,
    List.mem_map]
  refine ⟨1, ?_, n, ?_, by omega⟩
  · simp [identStart]
  · simpa using h

/-- A token is at least as long as what any rule of the block matches. -/
theorem runBlock_ge {T : Type} (rules : List (Rule T)) (lexer : Lexer T) (tok : Token)
    (r : Rule T) (hr : r ∈ rules) (m : Nat) (hm : r.re.longest lexer.input = some m)
    (he : (runBlock rules lexer tok).eol = false) :
    lexer.p_current + m ≤ (runBlock rules lexer tok).lexer.p_current := by
  unfold runBlock at he ⊢
  cases hpick : pick rules lexer.input with
  | none => rw [hpick] at he; simp at he
  | some b =>
    obtain ⟨n, a⟩ := b
    have hle := (pick_some hpick).2 r hr m hm
    rw [hpick] at he
    cases a with
    | ret_true => simp at he
    | TOK k => simp only; omega
    | TOK_MODE k md => simp only; omega

theorem Match_py_Outer (lexer : Lexer py_mode_e) (tok : Token)
    (h : lexer.line_mode = py_mode_e.Outer) :
    Match_py lexer tok = runBlock py_Outer_rules lexer tok := by
  unfold Match_py
  rw [h]

theorem strlen_longLine : strlen longLine = 2147483648 := by
  have h : ∀ c ∈ longLine, c ≠ 0 := by
    intro c hc
    rw [List.eq_of_mem_replicate hc]
    decide
  rw [strlen_eq_length h]
  exact List.length_replicate _ _

/-- The first token of `longLine` ends at offset `2 ^ 31`, and its `end_col` is `-2 ^ 31`. -/
theorem Match_py_longLexer (tok : Token) :
    (Match_py longLexer tok).eol = false ∧
    (Match_py longLexer tok).lexer.p_current = 2147483648 ∧
    (Match_py longLexer tok).tok.end_col = -2147483648 := by
  have hp : longLexer.p_current ≤ strlen longLexer.line_ := Nat.zero_le _
  have hs : strlen longLexer.line_ = 2147483648 := strlen_longLine
  have hlt : longLexer.p_current < strlen longLexer.line_ := by
    rw [hs]; exact Nat.zero_lt_succ _
  obtain ⟨h0, _, h2, _, h4⟩ := (Match_py_spec longLexer tok hp).2 hlt
  have hin : longLexer.input = List.replicate (2147483647 + 1) 97 ++ [0] := rfl
  obtain ⟨k, hk, hkn⟩ := identifier_replicate 2147483647 [0]
  rw [← hin] at hk
  have hM : Match_py longLexer tok = runBlock py_Outer_rules longLexer tok :=
    Match_py_Outer longLexer tok rfl
  have hge : longLexer.p_current + k ≤ (Match_py longLexer tok).lexer.p_current := by
    rw [hM] at h0 ⊢
    exact runBlock_ge py_Outer_rules longLexer tok ⟨identifier, Action.TOK Id.Name⟩
      (by simp [py_Outer_rules]) k hk h0
  have hpz : longLexer.p_current = 0 := rfl
  rw [hs] at h2
  have hpe : (Match_py longLexer tok).lexer.p_current = 2147483648 := by omega
  refine ⟨h0, hpe, ?_⟩
  rw [h4, hpe]
  unfold wrapInt32
  omega

/-! ## The loop over the tokens of a line in C++ mode -/

/-- C15, as stated, fails: on an input of `2 ^ 31` lines `GoodEnough` comes to
its end and the line count it reports, an `int`, is `-2 ^ 31`, not the number
of lines read. -/
theorem GoodEnough_line_count_overflows :
    manyLines.length = 2147483648 ∧
    ∃ run, GoodEnough py_mode_e ⟨false, false⟩ manyLines = Outcome.done run ∧
      run.log.lines = -2147483648 ∧ run.log.lines ≠ (manyLines.length : Int) := by
  have hl : manyLines.length = 2147483648 := List.length_replicate _ _
  refine ⟨hl, ?_⟩
  obtain ⟨run, hrun⟩ := lineLoop_py_done ⟨false, false⟩ manyLines
    (Lexer.init [] : Lexer py_mode_e) 1 0 []
  have h1 := (lineLoop_log ⟨false, false⟩ manyLines (Lexer.init [] : Lexer py_mode_e) 1 0 []
    run hrun).1
  rw [hl] at h1
  have hv : run.log.lines = -2147483648 := by
    rw [h1]
    unfold wrapInt32
    omega
  refine ⟨run, hrun, hv, ?_⟩
  rw [hv, hl]
  omega

/-- C15, amended: on every input of fewer than `2 ^ 31` lines `GoodEnough` in
Python mode comes to its end, the line count it reports is the number of lines
read and the count it reports as significant is the number of lines on which
the matcher produced at least one token of kind `Name` or `Other`; the same
holds in C++ mode whenever the run comes to its end; and no kind other than
`Name` and `Other` makes a line significant. -/
theorem GoodEnough_counts (flag : Flags) (lines : List (List Nat))
    (hlen : lines.length < 2 ^ 31) :
    (∃ run, GoodEnough py_mode_e flag lines = Outcome.done run ∧
      run.log.lines = (lines.length : Int) ∧
      run.log.significant = (sigCount lines (Lexer.init [] : Lexer py_mode_e) : Int)) ∧
    (∀ run, GoodEnough cpp_mode_e flag lines = Outcome.done run →
      run.log.lines = (lines.length : Int) ∧
      run.log.significant = (sigCount lines (Lexer.init [] : Lexer cpp_mode_e) : Int)) ∧
    (∀ k : Id, significant k = true ↔ k = Id.Name ∨ k = Id.Other) := by
  have key : ∀ (T : Type) [LineMode T] [Matcher T] (run : Run),
      GoodEnough T flag lines = Outcome.done run →
      run.log.lines = (lines.length : Int) ∧
      run.log.significant = (sigCount lines (Lexer.init [] : Lexer T) : Int) := by
    intro T _ _ run hrun
    obtain ⟨h1, h2⟩ := lineLoop_log flag lines (Lexer.init [] : Lexer T) 1 0 [] run hrun
    have hs := sigCount_le lines (Lexer.init [] : Lexer T)
    rw [h1, h2]
    constructor
    · have e : (1 : Int) + (lines.length : Int) - 1 = (lines.length : Int) := by omega
      rw [e]
      exact wrapInt32_natCast hlen
    · rw [zero_add]
      exact wrapInt32_natCast (by omega)
  refine ⟨?_, fun run hrun => key cpp_mode_e run hrun, ?_⟩
  · obtain ⟨run, hrun⟩ := lineLoop_py_done flag lines (Lexer.init [] : Lexer py_mode_e) 1 0 []
    exact ⟨run, hrun, key py_mode_e run hrun⟩
  · intro k
    cases k <;> simp [significant]

theorem GoodEnough_counts_witness :
    [sampleLine, [10], [35, 32, 120, 10]].length < 2 ^ 31 ∧
    ((∃ run, GoodEnough py_mode_e ⟨true, false⟩ [sampleLine, [10], [35, 32, 120, 10]] =
        Outcome.done run ∧
      run.log.lines = ([sampleLine, [10], [35, 32, 120, 10]].length : Int) ∧
      run.log.significant =
        (sigCount [sampleLine, [10], [35, 32, 120, 10]] (Lexer.init [] : Lexer py_mode_e) : Int)) ∧
    (∀ run, GoodEnough cpp_mode_e ⟨true, false⟩ [sampleLine, [10], [35, 32, 120, 10]] =
        Outcome.done run →
      run.log.lines = ([sampleLine, [10], [35, 32, 120, 10]].length : Int) ∧
      run.log.significant =
        (sigCount [sampleLine, [10], [35, 32, 120, 10]] (Lexer.init [] : Lexer cpp_mode_e) : Int)) ∧
    (∀ k : Id, significant k = true ↔ k = Id.Name ∨ k = Id.Other)) ∧
    sigCount [sampleLine, [10], [35, 32, 120, 10]] (Lexer.init [] : Lexer py_mode_e) = 1 :=
  ⟨by decide, GoodEnough_counts ⟨true, false⟩ [sampleLine, [10], [35, 32, 120, 10]] (by decide),
    by decide⟩

/-- C17, as stated, fails: the first call of `Match` on `longLine` returns
false and moves `p_current` to `2 ^ 31`, and the `end_col` it sets is
`-2 ^ 31`, not the new offset. -/
theorem Match_py_end_col_overflows :
    longLexer.line_ = longLine ∧ longLexer.p_current = 0 ∧
    (Match_py longLexer ⟨Id.Unknown, 0⟩).eol = false ∧
    (Match_py longLexer ⟨Id.Unknown, 0⟩).lexer.p_current = 2147483648 ∧
    (Match_py longLexer ⟨Id.Unknown, 0⟩).tok.end_col ≠
      ((Match_py longLexer ⟨Id.Unknown, 0⟩).lexer.p_current : Int) := by
  obtain ⟨h1, h2, h3⟩ := Match_py_longLexer ⟨Id.Unknown, 0⟩
  refine ⟨rfl, rfl, h1, h2, ?_⟩
  rw [h3, h2]
  omega

/-- C17, amended: for a lexer in any mode that has not passed the first NUL of
its line, a call of `Match` that returns false advances `p_current` by at
least one byte, does not move it past the first NUL, keeps the line and sets
`end_col` to the new offset converted to `int`, which is the new offset
whenever that is below `2 ^ 31`; a call that returns true leaves lexer and
token unchanged; and the loop over the tokens of a line in `GoodEnough` ends
after at most `strlen(line)` tokens. -/
theorem Match_py_progress (lexer : Lexer py_mode_e) (tok : Token)
    (hp : lexer.p_current ≤ strlen lexer.line_) :
    ((Match_py lexer tok).eol = false →
      lexer.p_current + 1 ≤ (Match_py lexer tok).lexer.p_current ∧
      (Match_py lexer tok).lexer.p_current ≤ strlen lexer.line_ ∧
      (Match_py lexer tok).lexer.line_ = lexer.line_ ∧
      (Match_py lexer tok).tok.end_col =
        wrapInt32 ((Match_py lexer tok).lexer.p_current : Int) ∧
      ((Match_py lexer tok).lexer.p_current < 2 ^ 31 →
        (Match_py lexer tok).tok.end_col = ((Match_py lexer tok).lexer.p_current : Int))) ∧
    ((Match_py lexer tok).eol = true →
      (Match_py lexer tok).lexer = lexer ∧ (Match_py lexer tok).tok = tok) ∧
    (∀ (flag : Flags) (line : List Nat) (line_num : Int) (out : List Out),
      (∃ st, tokenLoop flag line line_num (line.length + 1)
          { lexer := lexer.SetLine line, start_col := 0, is_significant := false, out := out } =
            Outcome.done st) ∧
      (lineTokens (line.length + 1) (lexer.SetLine line) 0).length ≤ strlen line) := by
  refine ⟨?_, ?_, ?_⟩
  · intro he
    have hlt := Match_py_lt lexer tok hp he
    obtain ⟨_, h1, h2, h3, h4⟩ := (Match_py_spec lexer tok hp).2 hlt
    refine ⟨h1, h2, h3, h4, ?_⟩
    intro hlen
    rw [h4]
    exact wrapInt32_natCast hlen
  · intro he
    rw [Match_py_eol lexer tok he]
    exact ⟨rfl, rfl⟩
  · intro flag line line_num out
    obtain ⟨st, hst, _, _⟩ := tokenLoop_py_done flag line line_num (line.length + 1)
      { lexer := lexer.SetLine line, start_col := 0, is_significant := false, out := out }
      (Nat.zero_le _)
      (by have := strlen_le_length line; simp only [Lexer.SetLine]; omega)
    refine ⟨⟨st, hst⟩, ?_⟩
    have := lineTokens_py_length (line.length + 1) (lexer.SetLine line) 0 (Nat.zero_le _)
    simpa [Lexer.SetLine] using this

theorem Match_py_progress_witness :
    (⟨sampleLine, 3, py_mode_e.Outer⟩ : Lexer py_mode_e).p_current ≤
      strlen (⟨sampleLine, 3, py_mode_e.Outer⟩ : Lexer py_mode_e).line_ ∧
    (((Match_py ⟨sampleLine, 3, py_mode_e.Outer⟩ ⟨Id.Unknown, 0⟩).eol = false →
      (⟨sampleLine, 3, py_mode_e.Outer⟩ : Lexer py_mode_e).p_current + 1 ≤
        (Match_py ⟨sampleLine, 3, py_mode_e.Outer⟩ ⟨Id.Unknown, 0⟩).lexer.p_current ∧
      (Match_py ⟨sampleLine, 3, py_mode_e.Outer⟩ ⟨Id.Unknown, 0⟩).lexer.p_current ≤
        strlen (⟨sampleLine, 3, py_mode_e.Outer⟩ : Lexer py_mode_e).line_ ∧
      (Match_py ⟨sampleLine, 3, py_mode_e.Outer⟩ ⟨Id.Unknown, 0⟩).lexer.line_ =
        (⟨sampleLine, 3, py_mode_e.Outer⟩ : Lexer py_mode_e).line_ ∧
      (Match_py ⟨sampleLine, 3, py_mode_e.Outer⟩ ⟨Id.Unknown, 0⟩).tok.end_col =
        wrapInt32
          ((Match_py ⟨sampleLine, 3, py_mode_e.Outer⟩ ⟨Id.Unknown, 0⟩).lexer.p_current : Int) ∧
      ((Match_py ⟨sampleLine, 3, py_mode_e.Outer⟩ ⟨Id.Unknown, 0⟩).lexer.p_current < 2 ^ 31 →
        (Match_py ⟨sampleLine, 3, py_mode_e.Outer⟩ ⟨Id.Unknown, 0⟩).tok.end_col =
          ((Match_py ⟨sampleLine, 3, py_mode_e.Outer⟩ ⟨Id.Unknown, 0⟩).lexer.p_current : Int))) ∧
    ((Match_py ⟨sampleLine, 3, py_mode_e.Outer⟩ ⟨Id.Unknown, 0⟩).eol = true →
      (Match_py ⟨sampleLine, 3, py_mode_e.Outer⟩ ⟨Id.Unknown, 0⟩).lexer =
        ⟨sampleLine, 3, py_mode_e.Outer⟩ ∧
      (Match_py ⟨sampleLine, 3, py_mode_e.Outer⟩ ⟨Id.Unknown, 0⟩).tok = ⟨Id.Unknown, 0⟩) ∧
    (∀ (flag : Flags) (line : List Nat) (line_num : Int) (out : List Out),
      (∃ st, tokenLoop flag line line_num (line.length + 1)
          { lexer := (⟨sampleLine, 3, py_mode_e.Outer⟩ : Lexer py_mode_e).SetLine line,
            start_col := 0, is_significant := false, out := out } = Outcome.done st) ∧
      (lineTokens (line.length + 1)
        ((⟨sampleLine, 3, py_mode_e.Outer⟩ : Lexer py_mode_e).SetLine line) 0).length ≤
          strlen line)) ∧
    (Match_py ⟨sampleLine, 3, py_mode_e.Outer⟩ ⟨Id.Unknown, 0⟩).eol = false ∧
    (Match_py ⟨sampleLine, 3, py_mode_e.Outer⟩ ⟨Id.Unknown, 0⟩).tok = ⟨Id.Other, 6⟩ :=
  ⟨by decide,
    Match_py_progress ⟨sampleLine, 3, py_mode_e.Outer⟩ ⟨Id.Unknown, 0⟩ (by decide),
    by decide, by decide⟩

/-! ## The modes of the Python lexer -/

theorem eq_cons3_of_take {inp : List Nat} {a b c : Nat} (h : inp.take 3 = [a, b, c]) :
    ∃ rest, inp = a :: b :: c :: rest := by
  rcases inp with _ | ⟨x, _ | ⟨y, _ | ⟨z, rest⟩⟩⟩
  · simp at h
  · simp at h
  · simp at h
  · simp only [List.take_succ_cons, List.take_zero, List.cons.injEq, and_true] at h
    obtain ⟨rfl, rfl, rfl⟩ := h
    exact ⟨rest, rfl⟩

theorem longest_triple_sq {inp : List Nat} {n : Nat} (h : triple_sq.longest inp = some n) :
    inp.take 3 = [39, 39, 39] ∧ n = 3 := by
  have hm := (maxLen_some h).1
  simp only [triple_sq, Re.ends] at hm
  by_cases hp : List.take [39, 39, 39].length inp = [39, 39, 39]
  · rw [if_pos hp] at hm
    exact ⟨hp, by simpa using hm⟩
  · rw [if_neg hp] at hm
    simp at hm

theorem mem_ends_chr {c n : Nat} {inp : List Nat} (h : n ∈ (chr c).ends inp) :
    ∃ rest, inp = c :: rest ∧ n = 1 := by
  cases inp with
  | nil => simp [chr, Re.ends] at h
  | cons x rest =>
    simp only [chr, Re.ends] at h
    by_cases hx : (x == c) = true
    · rw [if_pos hx] at h
      have hxc : x = c := by simpa using hx
      exact ⟨rest, by rw [hxc], by simpa using h⟩
    · rw [if_neg hx] at h
      simp at h

theorem longest_triple_dq {inp : List Nat} {n : Nat} (h : triple_dq.longest inp = some n) :
    inp.take 3 = [34, 34, 34] ∧ n = 3 := by
  have hm := (maxLen_some h).1
  simp only [triple_dq, Re.ends, List.mem_flatMap, List.mem_map] at hm
  obtain ⟨a, ha, m, hm1, rfl⟩ := hm
  obtain ⟨b, hb, k, hk, rfl⟩ := hm1
  obtain ⟨r1, rfl, rfl⟩ := mem_ends_chr ha
  simp only [List.drop_succ_cons, List.drop_zero] at hb hk
  obtain ⟨r2, rfl, rfl⟩ := mem_ends_chr hb
  simp only [List.drop_succ_cons, List.drop_zero] at hk
  obtain ⟨r3, rfl, rfl⟩ := mem_ends_chr hk
  simp

theorem pick_MultiSQ_close (rest : List Nat) : pick py_MultiSQ_rules (39 :: 39 :: 39 :: rest) =
    some (3, Action.TOK_MODE Id.TripleSQ py_mode_e.Outer) := by
  simp [pick, py_MultiSQ_rules, Re.longest, Re.ends, starEnds, maxLen, nul, triple_sq, anyUnit]

theorem pick_MultiDQ_close (rest : List Nat) : pick py_MultiDQ_rules (34 :: 34 :: 34 :: rest) =
    some (3, Action.TOK_MODE Id.TripleDQ py_mode_e.Outer) := by
  simp [pick, py_MultiDQ_rules, Re.longest, Re.ends, starEnds, maxLen, nul, triple_dq, anyUnit,
    chr]

theorem pick_Outer_sq (rest : List Nat) : pick py_Outer_rules (39 :: 39 :: 39 :: rest) =
    some (3, Action.TOK_MODE Id.TripleSQ py_mode_e.MultiSQ) := by
  simp [pick, py_Outer_rules, Re.longest, Re.ends, starEnds, maxLen, nul, triple_sq, triple_dq,
    anyUnit, chr, identifier, identStart, identCont, sq_middle, dq_middle, pound_comment,
    whitespace, otherChar, not_nul]

theorem pick_Outer_rsq (rest : List Nat) : pick py_Outer_rules (114 :: 39 :: 39 :: 39 :: rest) =
    some (4, Action.TOK_MODE Id.TripleSQ py_mode_e.MultiSQ) := by
  simp [pick, py_Outer_rules, Re.longest, Re.ends, starEnds, maxLen, nul, triple_sq, triple_dq,
    anyUnit, chr, identifier, identStart, identCont, sq_middle, dq_middle, pound_comment,
    whitespace, otherChar, not_nul]

theorem pick_Outer_dq (rest : List Nat) : pick py_Outer_rules (34 :: 34 :: 34 :: rest) =
    some (3, Action.TOK_MODE Id.TripleDQ py_mode_e.MultiDQ) := by
  simp [pick, py_Outer_rules, Re.longest, Re.ends, starEnds, maxLen, nul, triple_sq, triple_dq,
    anyUnit, chr, identifier, identStart, identCont, sq_middle, dq_middle, pound_comment,
    whitespace, otherChar, not_nul]

theorem pick_Outer_rdq (rest : List Nat) : pick py_Outer_rules (114 :: 34 :: 34 :: 34 :: rest) =
    some (4, Action.TOK_MODE Id.TripleDQ py_mode_e.MultiDQ) := by
  simp [pick, py_Outer_rules, Re.longest, Re.ends, starEnds, maxLen, nul, triple_sq, triple_dq,
    anyUnit, chr, identifier, identStart, identCont, sq_middle, dq_middle, pound_comment,
    whitespace, otherChar, not_nul]

/-- What a block does once the rule it selects is known. -/
theorem runBlock_of_pick {T : Type} (rules : List (Rule T)) (lexer : Lexer T) (tok : Token)
    (n : Nat) (k : Id) (m : T) (h : pick rules lexer.input = some (n, Action.TOK_MODE k m)) :
    (runBlock rules lexer tok).eol = false ∧ (runBlock rules lexer tok).tok.kind = k ∧
    (runBlock rules lexer tok).lexer.line_mode = m ∧
    (runBlock rules lexer tok).lexer.p_current = lexer.p_current + n := by
  unfold runBlock
  rw [h]
  exact ⟨rfl, rfl, rfl, rfl⟩

/-- In mode `MultiSQ` every token is a `TripleSQ`, and the mode becomes `Outer`
exactly at a closing `'''`. -/
theorem runBlock_MultiSQ (lexer : Lexer py_mode_e) (tok : Token)
    (hmode : lexer.line_mode = py_mode_e.MultiSQ)
    (he : (runBlock py_MultiSQ_rules lexer tok).eol = false) :
    (runBlock py_MultiSQ_rules lexer tok).tok.kind = Id.TripleSQ ∧
    ((lexer.input.take 3 = [39, 39, 39] ∧
        (runBlock py_MultiSQ_rules lexer tok).lexer.line_mode = py_mode_e.Outer ∧
        (runBlock py_MultiSQ_rules lexer tok).lexer.p_current = lexer.p_current + 3) ∨
      (lexer.input.take 3 ≠ [39, 39, 39] ∧
        (runBlock py_MultiSQ_rules lexer tok).lexer.line_mode = py_mode_e.MultiSQ)) := by
  by_cases hpre : lexer.input.take 3 = [39, 39, 39]
  · obtain ⟨rest, hin⟩ := eq_cons3_of_take hpre
    have hp : pick py_MultiSQ_rules lexer.input =
        some (3, Action.TOK_MODE Id.TripleSQ py_mode_e.Outer) := by
      rw [hin]; exact pick_MultiSQ_close rest
    obtain ⟨_, h2, h3, h4⟩ := runBlock_of_pick py_MultiSQ_rules lexer tok _ _ _ hp
    exact ⟨h2, Or.inl ⟨hpre, h3, h4⟩⟩
  · unfold runBlock at he ⊢
    cases hpick : pick py_MultiSQ_rules lexer.input with
    | none => rw [hpick] at he; simp at he
    | some b =>
      obtain ⟨n, a⟩ := b
      rw [hpick] at he
      obtain ⟨⟨r, hr, hl, ha⟩, _⟩ := pick_some hpick
      simp only [py_MultiSQ_rules, List.mem_cons, List.mem_singleton, List.not_mem_nil,
        or_false] at hr
      rcases hr with rfl | rfl | rfl | rfl
      · simp only at ha; subst ha; simp at he
      · exact absurd (longest_triple_sq hl).1 hpre
      · simp only at ha; subst ha
        exact ⟨rfl, Or.inr ⟨hpre, hmode⟩⟩
      · simp only at ha; subst ha
        exact ⟨rfl, Or.inr ⟨hpre, hmode⟩⟩

/-- In mode `MultiDQ` every token is a `TripleDQ`, and the mode becomes `Outer`
exactly at a closing `"""`. -/
theorem runBlock_MultiDQ (lexer : Lexer py_mode_e) (tok : Token)
    (hmode : lexer.line_mode = py_mode_e.MultiDQ)
    (he : (runBlock py_MultiDQ_rules lexer tok).eol = false) :
    (runBlock py_MultiDQ_rules lexer tok).tok.kind = Id.TripleDQ ∧
    ((lexer.input.take 3 = [34, 34, 34] ∧
        (runBlock py_MultiDQ_rules lexer tok).lexer.line_mode = py_mode_e.Outer ∧
        (runBlock py_MultiDQ_rules lexer tok).lexer.p_current = lexer.p_current + 3) ∨
      (lexer.input.take 3 ≠ [34, 34, 34] ∧
        (runBlock py_MultiDQ_rules lexer tok).lexer.line_mode = py_mode_e.MultiDQ)) := by
  by_cases hpre : lexer.input.take 3 = [34, 34, 34]
  · obtain ⟨rest, hin⟩ := eq_cons3_of_take hpre
    have hp : pick py_MultiDQ_rules lexer.input =
        some (3, Action.TOK_MODE Id.TripleDQ py_mode_e.Outer) := by
      rw [hin]; exact pick_MultiDQ_close rest
    obtain ⟨_, h2, h3, h4⟩ := runBlock_of_pick py_MultiDQ_rules lexer tok _ _ _ hp
    exact ⟨h2, Or.inl ⟨hpre, h3, h4⟩⟩
  · unfold runBlock at he ⊢
    cases hpick : pick py_MultiDQ_rules lexer.input with
    | none => rw [hpick] at he; simp at he
    | some b =>
      obtain ⟨n, a⟩ := b
      rw [hpick] at he
      obtain ⟨⟨r, hr, hl, ha⟩, _⟩ := pick_some hpick
      simp only [py_MultiDQ_rules, List.mem_cons, List.mem_singleton, List.not_mem_nil,
        or_false] at hr
      rcases hr with rfl | rfl | rfl | rfl
      · simp only at ha; subst ha; simp at he
      · exact absurd (longest_triple_dq hl).1 hpre
      · simp only at ha; subst ha
        exact ⟨rfl, Or.inr ⟨hpre, hmode⟩⟩
      · simp only at ha; subst ha
        exact ⟨rfl, Or.inr ⟨hpre, hmode⟩⟩

/-! ## The claims about the modes -/

/-- C16: the Python lexer starts in `Outer` and `SetLine` never changes
`line_mode`; in `Outer`, at `'''` or `r'''` (at `"""` or `r"""`) `Match` yields
a `TripleSQ` (`TripleDQ`) token of these 3 or 4 bytes and switches to `MultiSQ`
(`MultiDQ`); in `MultiSQ` (`MultiDQ`) every token has kind `TripleSQ`
(`TripleDQ`), the mode becomes `Outer` exactly when the input starts with the
closing `'''` (`"""`), which is then the token, and stays otherwise; a call
that returns true keeps the mode.  So the mode persists across lines, as on
the three lines `x = '''abc`, `foo` and `''' + 1`. -/
theorem py_multiline_modes (lexer : Lexer py_mode_e) (tok : Token) (line rest : List Nat) :
    (Lexer.init line : Lexer py_mode_e).line_mode = py_mode_e.Outer ∧
    (lexer.SetLine line).line_mode = lexer.line_mode ∧
    (lexer.line_mode = py_mode_e.Outer →
      (lexer.input = 39 :: 39 :: 39 :: rest →
        (Match_py lexer tok).eol = false ∧ (Match_py lexer tok).tok.kind = Id.TripleSQ ∧
        (Match_py lexer tok).lexer.line_mode = py_mode_e.MultiSQ ∧
        (Match_py lexer tok).lexer.p_current = lexer.p_current + 3) ∧
      (lexer.input = 114 :: 39 :: 39 :: 39 :: rest →
        (Match_py lexer tok).eol = false ∧ (Match_py lexer tok).tok.kind = Id.TripleSQ ∧
        (Match_py lexer tok).lexer.line_mode = py_mode_e.MultiSQ ∧
        (Match_py lexer tok).lexer.p_current = lexer.p_current + 4) ∧
      (lexer.input = 34 :: 34 :: 34 :: rest →
        (Match_py lexer tok).eol = false ∧ (Match_py lexer tok).tok.kind = Id.TripleDQ ∧
        (Match_py lexer tok).lexer.line_mode = py_mode_e.MultiDQ ∧
        (Match_py lexer tok).lexer.p_current = lexer.p_current + 3) ∧
      (lexer.input = 114 :: 34 :: 34 :: 34 :: rest →
        (Match_py lexer tok).eol = false ∧ (Match_py lexer tok).tok.kind = Id.TripleDQ ∧
        (Match_py lexer tok).lexer.line_mode = py_mode_e.MultiDQ ∧
        (Match_py lexer tok).lexer.p_current = lexer.p_current + 4)) ∧
    (lexer.line_mode = py_mode_e.MultiSQ → (Match_py lexer tok).eol = false →
      (Match_py lexer tok).tok.kind = Id.TripleSQ ∧
      ((lexer.input.take 3 = [39, 39, 39] ∧
          (Match_py lexer tok).lexer.line_mode = py_mode_e.Outer ∧
          (Match_py lexer tok).lexer.p_current = lexer.p_current + 3) ∨
        (lexer.input.take 3 ≠ [39, 39, 39] ∧
          (Match_py lexer tok).lexer.line_mode = py_mode_e.MultiSQ))) ∧
    (lexer.line_mode = py_mode_e.MultiDQ → (Match_py lexer tok).eol = false →
      (Match_py lexer tok).tok.kind = Id.TripleDQ ∧
      ((lexer.input.take 3 = [34, 34, 34] ∧
          (Match_py lexer tok).lexer.line_mode = py_mode_e.Outer ∧
          (Match_py lexer tok).lexer.p_current = lexer.p_current + 3) ∨
        (lexer.input.take 3 ≠ [34, 34, 34] ∧
          (Match_py lexer tok).lexer.line_mode = py_mode_e.MultiDQ))) ∧
    ((Match_py lexer tok).eol = true →
      (Match_py lexer tok).lexer.line_mode = lexer.line_mode) ∧
    (lineEnd 11 ((Lexer.init [] : Lexer py_mode_e).SetLine
        [120, 32, 61, 32, 39, 39, 39, 97, 98, 99])).line_mode = py_mode_e.MultiSQ ∧
    (lineEnd 4 ((⟨[], 0, py_mode_e.MultiSQ⟩ : Lexer py_mode_e).SetLine
        [102, 111, 111])).line_mode = py_mode_e.MultiSQ ∧
    (lineEnd 8 ((⟨[], 0, py_mode_e.MultiSQ⟩ : Lexer py_mode_e).SetLine
        [39, 39, 39, 32, 43, 32, 49])).line_mode = py_mode_e.Outer := by
  refine ⟨rfl, rfl, ?_, ?_, ?_, ?_, by decide, by decide, by decide⟩
  · intro hmode
    rw [Match_py_Outer lexer tok hmode]
    refine ⟨?_, ?_, ?_, ?_⟩
    · intro hin
      exact runBlock_of_pick _ lexer tok _ _ _ (by rw [hin]; exact pick_Outer_sq rest)
    · intro hin
      exact runBlock_of_pick _ lexer tok _ _ _ (by rw [hin]; exact pick_Outer_rsq rest)
    · intro hin
      exact runBlock_of_pick _ lexer tok _ _ _ (by rw [hin]; exact pick_Outer_dq rest)
    · intro hin
      exact runBlock_of_pick _ lexer tok _ _ _ (by rw [hin]; exact pick_Outer_rdq rest)
  · intro hmode he
    have hM : Match_py lexer tok = runBlock py_MultiSQ_rules lexer tok := by
      unfold Match_py; rw [hmode]
    rw [hM] at he ⊢
    exact runBlock_MultiSQ lexer tok hmode he
  · intro hmode he
    have hM : Match_py lexer tok = runBlock py_MultiDQ_rules lexer tok := by
      unfold Match_py; rw [hmode]
    rw [hM] at he ⊢
    exact runBlock_MultiDQ lexer tok hmode he
  · intro he
    rw [Match_py_eol lexer tok he]

/-- C18: the code reaches its `assert(0)`: a fresh C++ lexer is in `Outer`; on
the line of three double quotes `Match` yields a `TripleDQ` token and sets
`line_mode` to `Comm`; the next call of `Match` is in the `Comm` branch, where
the assertion fails; and `GoodEnough<cpp_mode_e>` aborts on this input. -/
theorem cpp_assert_reached :
    (Lexer.init [] : Lexer cpp_mode_e).line_mode = cpp_mode_e.Outer ∧
    Match_cpp ((Lexer.init [] : Lexer cpp_mode_e).SetLine [34, 34, 34, 10]) ⟨Id.Unknown, 0⟩ =
      some ⟨false, ⟨[34, 34, 34, 10], 3, cpp_mode_e.Comm⟩, ⟨Id.TripleDQ, 3⟩⟩ ∧
    Match_cpp ⟨[34, 34, 34, 10], 3, cpp_mode_e.Comm⟩ ⟨Id.Unknown, 0⟩ = none ∧
    GoodEnough cpp_mode_e ⟨false, false⟩ [[34, 34, 34, 10]] = Outcome.aborted ∧
    GoodEnough cpp_mode_e ⟨false, false⟩ [[39, 39, 39, 10]] = Outcome.aborted := by
  decide

end Mycpp
